import Mathlib

/-!
Verification of the retemplar reconciliation engine.

Shallow embedding of the Python sources:
  * `src/retemplar/utils/fs_utils.py`    (path normalization, glob matching, rule ranking)
  * `src/retemplar/utils/merge_utils.py` (line-level merge with conflict markers)
  * `src/retemplar/core.py`              (plan builder, apply executor, MVP merge)
  * `src/retemplar/schema.py`            (lock record normalization)
  * `src/retemplar/lockfile.py`          (atomic lock persistence)

Text is modelled as `List Char` (Python `str` is a sequence of unicode code
points).  The line-diff engine used by `merge_utils` is Python's
`difflib.SequenceMatcher(None, a, b)`; it is embedded faithfully below
(including the `autojunk` popularity filter that fires for sequences of 200 or
more elements, and the four junk/non-junk extension loops of
`find_longest_match`; with `isjunk=None` the junk set `bjunk` is empty, so the
two junk extension loops never run).
-/

/-- Python text: a list of unicode code points. -/
abbrev PyText := List Char

/-- Build a `PyText` from a Lean string literal. -/
def pyOf (s : String) : PyText := s.data

/-- The characters `str.splitlines` treats as line boundaries
(`\n`, `\r`, `\v`, `\f`, `\x1c`, `\x1d`, `\x1e`, `\x85`, U+2028, U+2029;
`\r\n` is a single boundary, handled separately). -/
def isLineBreak (c : Char) : Bool :=
  c = '\n' || c = '\r' || c = '\x0b' || c = '\x0c' ||
  c = '\x1c' || c = '\x1d' || c = '\x1e' || c = '\u0085' ||
  c = '\u2028' || c = '\u2029'

/-- `str.splitlines(keepends=True)`: helper with an accumulator holding the
current (reversed) line. -/
def splitKeepAux (acc : List Char) : List Char → List (List Char)
  | [] => if acc.isEmpty then [] else [acc.reverse]
  | '\r' :: '\n' :: rest => (acc.reverse ++ ['\r', '\n']) :: splitKeepAux [] rest
  | c :: rest =>
      if isLineBreak c then (acc.reverse ++ [c]) :: splitKeepAux [] rest
      else splitKeepAux (c :: acc) rest

/-- `s.splitlines(keepends=True)`. -/
def splitKeep (s : PyText) : List PyText := splitKeepAux [] s

/-- `s.endswith("\n")`. -/
def endsNl (s : PyText) : Bool := s.getLast? = some '\n'

/-- `s.rstrip("\n")`: drop trailing `'\n'` characters (only that character). -/
def rstripNl (s : PyText) : PyText := (s.reverse.dropWhile (· = '\n')).reverse

namespace Difflib

variable {α : Type} [DecidableEq α]

/-!
### `difflib.SequenceMatcher(None, a, b)`

Faithful model of the CPython implementation, specialized to `isjunk=None`
(both call sites in `merge_utils.py` construct `SequenceMatcher(None, ...)`),
so the junk set `bjunk` is empty and the two junk extension loops of
`find_longest_match` never execute.  The `autojunk` heuristic (elements of `b`
occurring more than `len(b)//100 + 1` times are dropped from `b2j` when
`len(b) >= 200`) is included.
-/



/-- Ascending list of positions of `v` in `b` (the raw `b2j` entry). -/
def occurrences (b : List α) (v : α) : List Nat :=
  (List.range b.length).filter (fun j => b.get? j = some v)

/-- `ntest = n // 100 + 1` in `__chain_b`. -/
def popularThreshold (n : Nat) : Nat := n / 100 + 1

/-- autojunk: with `len(b) >= 200`, elements occurring more than `ntest`
times are "popular" and removed from `b2j`. -/
def isPopular (b : List α) (v : α) : Bool :=
  decide (200 ≤ b.length) && decide (popularThreshold b.length < (occurrences b v).length)

/-- `self.b2j.get(v, [])` after `__chain_b`. -/
def b2j (b : List α) (v : α) : List Nat :=
  if isPopular b v then [] else occurrences b v

/-- A `(besti, bestj, size)` triple (`difflib.Match`). -/
structure Match3 where
  besti : Nat
  bestj : Nat
  size : Nat
deriving DecidableEq, Repr

/-- Inner loop of `find_longest_match`'s dynamic-programming phase: iterate
over `b2j[a[i]]` (ascending), `continue` below `blo`, `break` at `bhi`,
chain lengths read from the previous row's `j2len`, best updated on strictly
longer matches (`besti = i-k+1`, `bestj = j-k+1`) -- see `flmInner` below.

`k = j2lenget(j-1, 0) + 1` (previous row's chain length at `j-1`, plus
one; `j-1` is `-1`, hence absent, when `j = 0`). -/
def chainLen (prev : Nat → Nat) : Nat → Nat
  | 0 => 0 + 1
  | j' + 1 => prev j' + 1

def flmInner (blo bhi i : Nat) (prev : Nat → Nat) :
    List Nat → (Nat → Nat) → Match3 → ((Nat → Nat) × Match3)
  | [], acc, best => (acc, best)
  | j :: js, acc, best =>
      if j < blo then flmInner blo bhi i prev js acc best
      else if bhi ≤ j then (acc, best)
      else
        let k := chainLen prev j
        let acc' := fun j2 => if j2 = j then k else acc j2
        let best' : Match3 := if best.size < k then ⟨i + 1 - k, j + 1 - k, k⟩ else best
        flmInner blo bhi i prev js acc' best'

/-- `b2j.get(a[i], nothing)`: the position list scanned for row `i`. -/
def rowJs (a b : List α) (i : Nat) : List Nat :=
  match a.get? i with
  | some v => b2j b v
  | none => []

/-- Outer loop of the dynamic-programming phase: one `flmInner` pass per row
`i`, threading `j2len` (fresh `newj2len` each row). -/
def flmRows (a b : List α) (blo bhi : Nat) :
    List Nat → (Nat → Nat) → Match3 → Match3
  | [], _, best => best
  | i :: is, j2len, best =>
      let (acc, best') := flmInner blo bhi i j2len (rowJs a b i) (fun _ => 0) best
      flmRows a b blo bhi is acc best'

/-- `a[i] == b[j]` (both indices in range and elements equal). -/
def sameAt (a b : List α) (i j : Nat) : Bool :=
  match a.get? i, b.get? j with
  | some x, some y => decide (x = y)
  | _, _ => false

/-- Backward non-junk extension loop of `find_longest_match` (the `bjunk`
test is vacuous with `isjunk=None`).  `fuel` bounds the iteration count;
each step decrements `besti`, so `fuel = besti` is always enough. -/
def extendLower (a b : List α) (alo blo : Nat) : Nat → Match3 → Match3
  | 0, m => m
  | fuel + 1, m =>
      if alo < m.besti ∧ blo < m.bestj ∧
          sameAt a b (m.besti - 1) (m.bestj - 1) = true then
        extendLower a b alo blo fuel ⟨m.besti - 1, m.bestj - 1, m.size + 1⟩
      else m

/-- Forward non-junk extension loop of `find_longest_match`. -/
def extendUpper (a b : List α) (ahi bhi : Nat) : Nat → Match3 → Match3
  | 0, m => m
  | fuel + 1, m =>
      if m.besti + m.size < ahi ∧ m.bestj + m.size < bhi ∧
          sameAt a b (m.besti + m.size) (m.bestj + m.size) = true then
        extendUpper a b ahi bhi fuel ⟨m.besti, m.bestj, m.size + 1⟩
      else m

/-- `find_longest_match(alo, ahi, blo, bhi)`.  The two final junk extension
loops are omitted because their guard `isbjunk(...)` is always false with
`isjunk=None`. -/
def findLongestMatch (a b : List α) (alo ahi blo bhi : Nat) : Match3 :=
  let m1 := flmRows a b blo bhi (List.range' alo (ahi - alo)) (fun _ => 0) ⟨alo, blo, 0⟩
  let m2 := extendLower a b alo blo m1.besti m1
  extendUpper a b ahi bhi ahi m2

/-- The `get_matching_blocks` work-stack loop.  Python pops from the end of
`queue` and pushes the lower region then the upper region; the stack is
modelled with its top at the head.  `fuel` bounds the pop count; the supplied
`la + lb + 1` dominates it (each pop strictly decreases the total size of
queued regions plus the queue length). -/
def gmbLoop (a b : List α) : Nat → List (Nat × Nat × Nat × Nat) → List Match3 → List Match3
  | 0, _, acc => acc
  | _ + 1, [], acc => acc
  | fuel + 1, (alo, ahi, blo, bhi) :: stack, acc =>
      let m := findLongestMatch a b alo ahi blo bhi
      if 0 < m.size then
        let stack1 := if alo < m.besti ∧ blo < m.bestj then
          (alo, m.besti, blo, m.bestj) :: stack else stack
        let stack2 := if m.besti + m.size < ahi ∧ m.bestj + m.size < bhi then
          (m.besti + m.size, ahi, m.bestj + m.size, bhi) :: stack1 else stack1
        gmbLoop a b fuel stack2 (m :: acc)
      else gmbLoop a b fuel stack acc

/-- Lexicographic order on match triples (Python tuple comparison used by
`matching_blocks.sort()`). -/
def m3Le (x y : Match3) : Bool :=
  decide (x.besti < y.besti) ||
  (decide (x.besti = y.besti) &&
    (decide (x.bestj < y.bestj) ||
      (decide (x.bestj = y.bestj) && decide (x.size ≤ y.size))))

def insertM3 (x : Match3) : List Match3 → List Match3
  | [] => [x]
  | y :: ys => if m3Le x y then x :: y :: ys else y :: insertM3 x ys

def sortM3 : List Match3 → List Match3
  | [] => []
  | x :: xs => insertM3 x (sortM3 xs)

/-- The adjacent-block coalescing pass of `get_matching_blocks`
(state `(i1, j1, k1)` starts at `(0, 0, 0)`). -/
def mergeAdj : Nat × Nat × Nat → List Match3 → List Match3
  | (i1, j1, k1), [] => if k1 ≠ 0 then [⟨i1, j1, k1⟩] else []
  | (i1, j1, k1), ⟨i2, j2, k2⟩ :: rest =>
      if i1 + k1 = i2 ∧ j1 + k1 = j2 then mergeAdj (i1, j1, k1 + k2) rest
      else if k1 ≠ 0 then ⟨i1, j1, k1⟩ :: mergeAdj (i2, j2, k2) rest
      else mergeAdj (i2, j2, k2) rest

/-- `get_matching_blocks()` (including the `(la, lb, 0)` sentinel). -/
def getMatchingBlocks (a b : List α) : List Match3 :=
  let blocks := sortM3 (gmbLoop a b (a.length + b.length + 1)
    [(0, a.length, 0, b.length)] [])
  mergeAdj (0, 0, 0) blocks ++ [⟨a.length, b.length, 0⟩]

inductive OpTag where
  | replace
  | delete
  | insert
  | equal
deriving DecidableEq, Repr

/-- One `(tag, i1, i2, j1, j2)` opcode. -/
abbrev Opcode := OpTag × Nat × Nat × Nat × Nat

/-- The loop body of `get_opcodes()`. -/
def opcodesFrom : Nat → Nat → List Match3 → List Opcode
  | _, _, [] => []
  | i, j, ⟨ai, bj, size⟩ :: rest =>
      let pre : List Opcode :=
        if i < ai ∧ j < bj then [(OpTag.replace, i, ai, j, bj)]
        else if i < ai then [(OpTag.delete, i, ai, j, bj)]
        else if j < bj then [(OpTag.insert, i, ai, j, bj)]
        else []
      let eqs : List Opcode :=
        if 0 < size then [(OpTag.equal, ai, ai + size, bj, bj + size)] else []
      pre ++ eqs ++ opcodesFrom (ai + size) (bj + size) rest

/-- `get_opcodes()`. -/
def getOpcodes (a b : List α) : List Opcode :=
  opcodesFrom 0 0 (getMatchingBlocks a b)

/-!
#### `SequenceMatcher` on identical inputs

For the self-comparison `(a, a)` the dynamic-programming phase only ever
updates its best match on the diagonal, the two extension loops then widen it
to the full range, and `get_opcodes` returns a single `equal` opcode.
-/

/-- For the self-comparison: `j` is scanned in row `i` (that is,
`a[j] == a[i]` and the shared value is not autojunk-popular). -/
def memb (a : List α) (i j : Nat) : Prop := j ∈ rowJs a a i

instance (a : List α) (i j : Nat) : Decidable (memb a i j) := by
  unfold memb; infer_instance

/-- Length of the maximal scannable run ending at position `i`. -/
def runLen (a : List α) : Nat → Nat
  | 0 => if memb a 0 0 then 1 else 0
  | i + 1 => if memb a (i + 1) (i + 1) then runLen a i + 1 else 0

/-- `max` of `runLen` over positions `< i`. -/
def maxRun (a : List α) : Nat → Nat
  | 0 => 0
  | i + 1 => max (maxRun a i) (runLen a i)

/-- The `j2len` row after processing row `i` of the self-comparison. -/
def rowv (a : List α) : Nat → Nat → Nat
  | 0, j => if memb a 0 j then chainLen (fun _ => 0) j else 0
  | i + 1, j => if memb a (i + 1) j then chainLen (rowv a i) j else 0

/-- The `j2len` row *entering* row `i` (empty for the first row). -/
def prevRow (a : List α) : Nat → Nat → Nat
  | 0, _ => 0
  | i + 1, j => rowv a i j

end Difflib

namespace Blockprotect

/-!
### `retemplar.utils.blockprotect` (spec-modelled)

The module `src/retemplar/utils/blockprotect.py` is imported by
`merge_utils.py` (`find_ignore_blocks`, `enforce_ours_blocks`) but its source
is not part of the provided tree; only its callers and tests are.  The pieces
`merge_utils` needs are modelled from the spec, §4.2 BlockProtector.
-/


/-- A protected text region: inclusive start/end line indices.
`stop` models the Python attribute `end`. -/
structure Span where
  start : Nat
  stop : Nat
deriving DecidableEq, Repr

/-- Index list: first occurrence of `pat` as a contiguous sublist. -/
def dropAfterSub (pat : PyText) : PyText → Option PyText
  | [] => if pat = [] then some [] else none
  | c :: rest =>
      if pat.isPrefixOf (c :: rest) then some ((c :: rest).drop pat.length)
      else dropAfterSub pat rest

def hasSub (pat line : PyText) : Bool := (dropAfterSub pat line).isSome

/-- Modelled from the spec: the `id=<token>` carried by a sentinel line
(`blockprotect.py` is missing from the tree); the token is the maximal
whitespace-free run after the first `id=`. -/
def extractId (line : PyText) : Option PyText :=
  match dropAfterSub (pyOf "id=") line with
  | none => none
  | some rest =>
      let tok := rest.takeWhile (fun c => !c.isWhitespace)
      if tok = [] then none else some tok

def getAssoc {β : Type} (key : PyText) : List (PyText × β) → Option β
  | [] => none
  | (k, v) :: rest => if k = key then some v else getAssoc key rest

/-- Overwrite-in-place (or append) an association, preserving insertion
order, like assignment into a Python dict. -/
def setAssoc {β : Type} (key : PyText) (val : β) : List (PyText × β) → List (PyText × β)
  | [] => [(key, val)]
  | (k, v) :: rest =>
      if k = key then (k, val) :: rest else (k, v) :: setAssoc key val rest

def removeAssoc {β : Type} (key : PyText) : List (PyText × β) → List (PyText × β)
  | [] => []
  | (k, v) :: rest =>
      if k = key then rest else (k, v) :: removeAssoc key rest

/-- Modelled from the spec: scan of the lines for sentinel-delimited ignore
blocks (`blockprotect.find_ignore_blocks` is missing from the tree).  A begin
line carries the begin marker, `id=<token>` and the ignore-mode marker; an end
line carries the end marker and the matching id; a later begin with a
previously seen id overwrites the earlier span (last occurrence wins); an
unmatched begin yields no span. -/
def findGo : Nat → List PyText → List (PyText × Nat) → List (PyText × Span) →
    List (PyText × Span)
  | _, [], _, done => done
  | i, line :: rest, opens, done =>
      match extractId line with
      | some t =>
          if hasSub (pyOf "retemplar:begin") line && hasSub (pyOf "mode=ignore") line then
            findGo (i + 1) rest (setAssoc t i opens) done
          else if hasSub (pyOf "retemplar:end") line then
            match getAssoc t opens with
            | some st => findGo (i + 1) rest (removeAssoc t opens) (setAssoc t ⟨st, i⟩ done)
            | none => findGo (i + 1) rest opens done
          else findGo (i + 1) rest opens done
      | none => findGo (i + 1) rest opens done

/-- Modelled from the spec: `find_ignore_blocks(text)`, as an
insertion-ordered association list (a Python dict `id -> span`). -/
def findIgnoreBlocks (text : PyText) : List (PyText × Span) :=
  findGo 0 (splitKeep text) [] []

end Blockprotect

namespace MergeUtils

open Difflib Blockprotect

/-!
### `src/retemplar/utils/merge_utils.py`
-/



/-- Python list slicing `l[i:j]` for `0 ≤ i`, `0 ≤ j`. -/
def pySlice {β : Type} (l : List β) (i j : Nat) : List β := (l.take j).drop i

/-- `_normalize_trailing_newline(result, template)`. -/
def normalizeTrailingNewline (result template : PyText) : PyText :=
  if template = [] then result
  else if endsNl template then
    (if endsNl result then result else result ++ ['\n'])
  else rstripNl result

/-- `_is_trivial_trailing_newline_diff(...)` (the two `[0]` indexings are
guarded by the length-1 tests, expressed here as a match). -/
def isTrivialTrailingNlDiff (oursChunk theirsChunk : List PyText) (i2 j2 : Nat)
    (oursLines theirsLines : List PyText) : Bool :=
  match oursChunk, theirsChunk with
  | [o], [t] =>
      decide (rstripNl o = rstripNl t) &&
      decide (i2 = oursLines.length) && decide (j2 = theirsLines.length)
  | _, _ => false

/-- `_is_only_trailing_newline_addition(...)`. -/
def isOnlyTrailingNlAddition (oursChunk : List PyText) (i2 : Nat)
    (oursLines : List PyText) : Bool :=
  match oursChunk with
  | [o] => decide (o = ['\n']) && decide (i2 = oursLines.length)
  | _ => false

/-- `if conflict and not conflict[-1].endswith("\n"): conflict[-1] += "\n"`. -/
def padLastNl (ls : List PyText) : List PyText :=
  match ls.getLast? with
  | none => ls
  | some last => if endsNl last then ls else ls.dropLast ++ [last ++ ['\n']]

/-- `_create_conflict(ours_chunk, theirs_chunk)`. -/
def createConflict (oursChunk theirsChunk : List PyText) : List PyText :=
  let conflict := pyOf "<<<<<<< LOCAL\n" :: oursChunk
  let conflict := padLastNl conflict
  let conflict := conflict ++ [pyOf "=======\n"] ++ theirsChunk
  let conflict := padLastNl conflict
  conflict ++ [pyOf ">>>>>>> TEMPLATE\n"]

/-- `_merge_simple(ours_lines, theirs_lines)`. -/
def mergeSimple (oursLines theirsLines : List PyText) : List PyText :=
  (getOpcodes oursLines theirsLines).foldl
    (fun result op =>
      match op with
      | (OpTag.equal, i1, i2, _, _) => result ++ pySlice oursLines i1 i2
      | (OpTag.insert, _, _, j1, j2) => result ++ pySlice theirsLines j1 j2
      | (tag, i1, i2, j1, j2) =>
          let oursChunk := pySlice oursLines i1 i2
          let theirsChunk :=
            if tag = OpTag.replace then pySlice theirsLines j1 j2 else []
          if isTrivialTrailingNlDiff oursChunk theirsChunk i2 j2
              oursLines theirsLines then
            result ++ theirsChunk
          else if isOnlyTrailingNlAddition oursChunk i2 oursLines then
            result
          else result ++ createConflict oursChunk theirsChunk)
    []

/-- `_find_overlapping_blocks(start, end, blocks)`. -/
def findOverlappingBlocks (start stop : Nat) (blocks : List (PyText × Span)) :
    List (PyText × Span) :=
  blocks.filter (fun bs => decide (bs.2.start < stop) && decide (start ≤ bs.2.stop))

/-- Stable sort by `span.start` (`sorted(overlapping, key=...)`). -/
def insertBySpanStart (x : PyText × Span) : List (PyText × Span) → List (PyText × Span)
  | [] => [x]
  | y :: ys =>
      if x.2.start < y.2.start then x :: y :: ys else y :: insertBySpanStart x ys

def sortBySpanStart : List (PyText × Span) → List (PyText × Span)
  | [] => []
  | x :: xs => insertBySpanStart x (sortBySpanStart xs)

/-- `if result and result[-1] and not result[-1].endswith("\n")`:
append a newline to a nonempty last element lacking one. -/
def padLastNonemptyNl (ls : List PyText) : List PyText :=
  match ls.getLast? with
  | none => ls
  | some last =>
      if last ≠ [] ∧ endsNl last = false then ls.dropLast ++ [last ++ ['\n']]
      else ls

/-- `_split_around_blocks(start_line, ours_chunk, theirs_chunk, overlapping)`.
All the Python index arithmetic here stays non-negative (`pos` starts at
`start_line` and only moves to `span.end + 1` of an overlapping span), so
truncating `Nat` subtraction agrees with the source's `max(0, ...)` and plain
subtractions. -/
def splitAroundBlocks (startLine : Nat) (oursChunk theirsChunk : List PyText)
    (overlapping : List (PyText × Span)) : List PyText :=
  let step := fun (st : List PyText × Nat) (bs : PyText × Span) =>
    let result := st.1
    let pos := st.2
    let span := bs.2
    let result :=
      if pos < span.start then
        let preOurs := pySlice oursChunk (pos - startLine) (span.start - startLine)
        let preTheirs :=
          if pos - startLine < theirsChunk.length then
            pySlice theirsChunk (pos - startLine) (span.start - startLine)
          else []
        if preOurs ≠ [] ∨ preTheirs ≠ [] then result ++ mergeSimple preOurs preTheirs
        else result
      else result
    let blockStart := span.start - startLine
    let blockEnd := min oursChunk.length (span.stop + 1 - startLine)
    let blockLines := pySlice oursChunk blockStart blockEnd
    let result :=
      if blockLines ≠ [] then padLastNonemptyNl result ++ blockLines else result
    (result, span.stop + 1)
  let out := (sortBySpanStart overlapping).foldl step ([], startLine)
  if out.2 < startLine + oursChunk.length then
    let postOurs := oursChunk.drop (out.2 - startLine)
    let postTheirs :=
      if out.2 - startLine < theirsChunk.length then theirsChunk.drop (out.2 - startLine)
      else []
    if postOurs ≠ [] ∨ postTheirs ≠ [] then out.1 ++ mergeSimple postOurs postTheirs
    else out.1
  else out.1

/-- `_merge_with_blocks(ours_lines, theirs_lines, blocks)`. -/
def mergeWithBlocks (oursLines theirsLines : List PyText)
    (blocks : List (PyText × Span)) : List PyText :=
  (getOpcodes oursLines theirsLines).foldl
    (fun result op =>
      match op with
      | (OpTag.equal, i1, i2, _, _) => result ++ pySlice oursLines i1 i2
      | (_, i1, i2, j1, j2) =>
          let oursChunk := pySlice oursLines i1 i2
          let theirsChunk := pySlice theirsLines j1 j2
          let overlapping := findOverlappingBlocks i1 i2 blocks
          if overlapping = [] then result ++ mergeSimple oursChunk theirsChunk
          else result ++ splitAroundBlocks i1 oursChunk theirsChunk overlapping)
    []

/-- `merge_with_conflicts(ours, theirs)` (the TextMerger entry point). -/
def mergeWithConflicts (ours theirs : PyText) : PyText :=
  let oursLines := splitKeep ours
  let theirsLines := splitKeep theirs
  let oursBlocks := findIgnoreBlocks ours
  let resultLines :=
    if oursBlocks = [] then mergeSimple oursLines theirsLines
    else mergeWithBlocks oursLines theirsLines oursBlocks
  normalizeTrailingNewline resultLines.flatten theirs

end MergeUtils

/-!
### Shared path helpers (`PurePosixPath(...).as_posix()`, `str.strip()`)
-/

/-- `str.split('/')`. -/
def splitSlash : PyText → List PyText
  | [] => [[]]
  | '/' :: rest => [] :: splitSlash rest
  | c :: rest =>
      match splitSlash rest with
      | [] => [[c]]
      | h :: t => (c :: h) :: t

/-- `'/'.join(segs)`. -/
def joinSlash (segs : List PyText) : PyText :=
  (segs.intersperse (pyOf "/")).flatten

/-- The root of `PurePosixPath(s)`: a leading double slash is preserved, any
other run of leading slashes collapses to one. -/
def pyPosixRoot (s : PyText) : PyText :=
  let leading := (s.takeWhile (· = '/')).length
  if leading = 2 then pyOf "//" else if 1 ≤ leading then pyOf "/" else []

/-- The retained segments of `PurePosixPath(s)`: empty and `.` parts drop. -/
def pyPosixSegs (s : PyText) : List PyText :=
  (splitSlash s).filter (fun seg => seg ≠ [] ∧ seg ≠ pyOf ".")

/-- `PurePosixPath(s).as_posix()`: drop empty and `.` segments, collapse
slashes (a leading double slash is preserved, three or more collapse to one),
no trailing slash, and `.` for an empty result. -/
def pyPosix (s : PyText) : PyText :=
  if pyPosixRoot s = [] ∧ joinSlash (pyPosixSegs s) = [] then pyOf "."
  else pyPosixRoot s ++ joinSlash (pyPosixSegs s)

/-- `str.strip()` (whitespace at both ends). -/
def pyStrip (s : PyText) : PyText :=
  ((s.dropWhile Char.isWhitespace).reverse.dropWhile Char.isWhitespace).reverse

namespace Schema

/-!
### `src/retemplar/schema.py`
-/


/-- `Strategy = Literal["enforce", "merge", "preserve"]`. -/
inductive Strategy where
  | enforce
  | merge
  | preserve
deriving DecidableEq, Repr

/-- `ManagedPath` (path already through `_norm_path` when validated). -/
structure ManagedPath where
  path : PyText
  strategy : Strategy
deriving DecidableEq, Repr

/-- `TemplateSource` (kind is the literal `"rat"`). -/
structure TemplateSource where
  kind : PyText
  repo : PyText
  ref : PyText
  commit : Option PyText
deriving DecidableEq, Repr

/-- `RetemplarLock` (the fields the core reads and writes; `schema_version`,
`render_rules`, `baseline_ref` and `consumer_commit` are carried along
unchanged by everything modelled here and are omitted). -/
structure RetemplarLock where
  template : TemplateSource
  version : Option PyText
  managedPaths : List ManagedPath
  ignorePaths : List PyText
  appliedRef : Option PyText
  appliedCommit : Option PyText
deriving DecidableEq, Repr

/-- `ManagedPath._norm_path`: reject empty/whitespace-only, else
posix-normalize the stripped path. -/
def normPath (v : PyText) : Except PyText PyText :=
  if v = [] ∨ pyStrip v = [] then .error (pyOf "managed path cannot be empty")
  else .ok (pyPosix (pyStrip v))

/-- `RetemplarLock._norm_ignores`: strip+normalize, drop empties, first
occurrence wins. -/
def normIgnores (v : List PyText) : List PyText :=
  v.foldl
    (fun out p =>
      let p2 := pyPosix (pyStrip p)
      if p2 ≠ [] ∧ p2 ∉ out then out ++ [p2] else out)
    []

/-- `RetemplarLock._dedupe_managed`: deduplicate by path, first occurrence
wins. -/
def dedupeManaged (rs : List ManagedPath) : List ManagedPath :=
  rs.foldl
    (fun deduped r =>
      if deduped.any (fun d => d.path = r.path) then deduped else deduped ++ [r])
    []

/-- `RetemplarLock._sync_version`: `version = f"{kind}@{ref}"` (recomputed
whenever absent or different). -/
def syncVersion (lock : RetemplarLock) : RetemplarLock :=
  let expected := lock.template.kind ++ pyOf "@" ++ lock.template.ref
  if lock.version = some expected then lock else { lock with version := some expected }

/-- `RetemplarLock._seed_applied_defaults`. -/
def seedApplied (lock : RetemplarLock) : RetemplarLock :=
  { lock with
    appliedRef := match lock.appliedRef with
      | none => some lock.template.ref
      | s => s
    appliedCommit := match lock.appliedCommit with
      | none => lock.template.commit
      | s => s }

/-- Constructing a validated `RetemplarLock` from raw field values: each
managed path goes through `_norm_path`, ignore paths through `_norm_ignores`,
then the three after-model-validators run in declaration order
(`_dedupe_managed`, `_sync_version`, `_seed_applied_defaults`). -/
def mkLock (template : TemplateSource) (version : Option PyText)
    (managedRaw : List (PyText × Strategy)) (ignoreRaw : List PyText)
    (appliedRef appliedCommit : Option PyText) :
    Except PyText RetemplarLock := do
  let managed ← managedRaw.mapM (fun pr => do
    let p ← normPath pr.1
    pure (⟨p, pr.2⟩ : ManagedPath))
  let lock0 : RetemplarLock :=
    ⟨template, version, managed, normIgnores ignoreRaw, appliedRef, appliedCommit⟩
  pure (seedApplied (syncVersion { lock0 with managedPaths := dedupeManaged lock0.managedPaths }))

end Schema

namespace FsUtils

open Schema

/-!
### `src/retemplar/utils/fs_utils.py`
-/



/-- One bracket item: a character range (single characters are `(c, c)`). -/
def memBracket : PyText → Char → Bool
  | a :: '-' :: b :: rest, c => (decide (a ≤ c) && decide (c ≤ b)) || memBracket rest c
  | a :: rest, c => decide (a = c) || memBracket rest c
  | [], _ => false

/-- Scan a `fnmatch` bracket expression (the text after `[`): an optional
leading `!` negates, a `]` right after that is a literal member, the body
runs to the next `]`; `none` when unclosed (the `[` is then literal). -/
def scanBracket (l : PyText) : Option (Bool × PyText × PyText) :=
  let negl : Bool × PyText := match l with
    | '!' :: t => (true, t)
    | _ => (false, l)
  let prel : PyText × PyText := match negl.2 with
    | ']' :: t => ([']'], t)
    | _ => ([], negl.2)
  if (']' : Char) ∈ prel.2 then
    some (negl.1, prel.1 ++ prel.2.takeWhile (· ≠ ']'),
      (prel.2.dropWhile (· ≠ ']')).tail)
  else none

/-- `fnmatch.fnmatch(name, pat)` (on POSIX `normcase` is the identity, so
this is `fnmatchcase`): `*` matches any run, `?` any single character,
`[...]`/`[!...]` character classes with ranges, everything else literally,
anchored at both ends.  The recursion is driven by a fuel that starts at
`p.length + s.length + 1`: every recursive call shrinks `p.length + s.length`
by at least one while the fuel drops by exactly one, so the fuel stays above
the measure and the `0` case is never reached. -/
def globMatchF : Nat → PyText → PyText → Bool
  | 0, _, _ => false
  | fuel + 1, p, s =>
    match p, s with
    | [], s => s.isEmpty
    | '*' :: ps, s =>
        globMatchF fuel ps s ||
        (match s with
         | [] => false
         | _ :: t => globMatchF fuel ('*' :: ps) t)
    | '?' :: ps, s =>
        (match s with
         | [] => false
         | _ :: t => globMatchF fuel ps t)
    | '[' :: ps, s =>
        match scanBracket ps with
        | none =>
            (match s with
             | [] => false
             | c :: t => decide (c = '[') && globMatchF fuel ps t)
        | some (neg, body, rest) =>
            (match s with
             | [] => false
             | c :: t => (memBracket body c != neg) && globMatchF fuel rest t)
    | c :: ps, s =>
        (match s with
         | [] => false
         | c' :: t => decide (c = c') && globMatchF fuel ps t)

def globMatch (p s : PyText) : Bool := globMatchF (p.length + s.length + 1) p s

/-- `fs_utils.match(path, pattern)`. -/
def matchPat (path pattern : PyText) : Bool :=
  let path := pyPosix path
  let pattern := pyPosix pattern
  if (pyOf "/**").isSuffixOf pattern then
    decide (path = pattern.take (pattern.length - 3)) ||
      (pattern.take (pattern.length - 3) ++ pyOf "/").isPrefixOf path
  else globMatch pattern path

/-- The sort key of `fs_utils.best_rule`: specificity class
(exact 0, trailing `/**` 1, other wildcard 2, other 3); within a class the
longer pattern sorts first (`-len`). -/
def ruleClass (path : PyText) (r : ManagedPath) : Nat :=
  let p := pyPosix r.path
  if p = pyPosix path then 0
  else if (pyOf "/**").isSuffixOf p then 1
  else if ('*' : Char) ∈ p then 2
  else 3

/-- Strict "sorts before" for `best_rule`'s key `(class, -len(p))`. -/
def keyBefore (path : PyText) (r1 r2 : ManagedPath) : Bool :=
  decide (ruleClass path r1 < ruleClass path r2) ||
  (decide (ruleClass path r1 = ruleClass path r2) &&
    decide ((pyPosix r2.path).length < (pyPosix r1.path).length))

/-- `fs_utils.best_rule(path, managed_rules)`: the first element of the
stable sort by key, i.e. the first match whose key is minimal. -/
def bestRule (path : PyText) (managedRules : List ManagedPath) : Option ManagedPath :=
  match managedRules.filter (fun r => matchPat path r.path) with
  | [] => none
  | m :: ms => some (ms.foldl (fun acc r => if keyBefore path r acc then r else acc) m)

/-- `fs_utils.is_ignored(rel, ignore_patterns)`. -/
def isIgnored (rel : PyText) (ignorePatterns : List PyText) : Bool :=
  ignorePatterns.any (fun pat => matchPat rel pat)

end FsUtils

namespace Core

open Schema

/-!
### `src/retemplar/core.py`

The plan builder and apply executor operate on abstract file trees:
`targetFiles` is the list of relative paths of the new template tree (in
`rglob` enumeration order, the iteration order of `_get_template_files`'
dict), `repoFiles` the list of relative paths under the repository root (in
`rglob` order), and file contents live in maps `PyText → Option PyText`.
Human-readable `description` strings and the version bookkeeping of the
returned dicts are presentation-only and not modelled.
-/



/-- `RetemplarCore._matches_pattern(file_path, pattern)` ("Simple pattern
matching for MVP": a trailing `/**` directory glob, an exact match, and any
other wildcard pattern matches nothing). -/
def matchesPattern (filePath pattern : PyText) : Bool :=
  if (pyOf "/**").isSuffixOf pattern then
    let dirPrefix := pattern.take (pattern.length - 3)
    (dirPrefix ++ pyOf "/").isPrefixOf filePath || decide (filePath = dirPrefix)
  else if ('*' : Char) ∈ pattern then false
  else decide (filePath = pattern)

/-- `RetemplarCore._is_ignored(file_path, ignore_patterns)`. -/
def isIgnored (filePath : PyText) (ignorePatterns : List PyText) : Bool :=
  ignorePatterns.any (fun pat => matchesPattern filePath pat)

/-- `rule_specificity` inside `_find_best_matching_rule`:
`(1, len)` for `/**` globs, `(2, len)` for other wildcards, `(0, len)` for
exact paths — sorted ascending, so *shorter* patterns win inside a class. -/
def ruleSpecificity (rule : ManagedPath) : Nat × Nat :=
  if Blockprotect.hasSub (pyOf "/**") rule.path then (1, rule.path.length)
  else if ('*' : Char) ∈ rule.path then (2, rule.path.length)
  else (0, rule.path.length)

/-- Strict lexicographic "sorts before" on `rule_specificity`. -/
def specBefore (r1 r2 : ManagedPath) : Bool :=
  decide ((ruleSpecificity r1).1 < (ruleSpecificity r2).1) ||
  (decide ((ruleSpecificity r1).1 = (ruleSpecificity r2).1) &&
    decide ((ruleSpecificity r1).2 < (ruleSpecificity r2).2))

/-- `RetemplarCore._find_best_matching_rule(file_path, managed_paths)`:
first element of the stable sort by `rule_specificity`. -/
def findBestMatchingRule (filePath : PyText) (managedPaths : List ManagedPath) :
    Option ManagedPath :=
  match managedPaths.filter (fun r => matchesPattern filePath r.path) with
  | [] => none
  | m :: ms => some (ms.foldl (fun acc r => if specBefore r acc then r else acc) m)

/-- `RetemplarCore._file_was_modified_locally`: "for MVP, assume all existing
files were modified" — it just returns `repo_file.exists()`. -/
def fileWasModifiedLocally (repoFiles : List PyText) (p : PyText) : Bool :=
  p ∈ repoFiles

/-- The `type` of a plan change.  `unknown` is the initial value of the
Python dict entry; it survives only if no strategy branch matches, which
cannot happen for the closed `Strategy` literal set. -/
inductive ChangeType where
  | create
  | overwrite
  | skip
  | conflict
  | delete
  | keep
  | orphan
  | unknown
deriving DecidableEq, Repr

structure Change where
  file : PyText
  strategy : Strategy
  type : ChangeType
  matchedRule : PyText
deriving DecidableEq, Repr

structure PlanState where
  processed : List PyText
  changes : List Change
  conflicts : Nat
deriving DecidableEq, Repr

/-- The body of `plan_upgrade`'s first loop (files present in the new
template). -/
def loop1Step (repoFiles : List PyText) (managed : List ManagedPath)
    (ignores : List PyText) (st : PlanState) (fileRelPath : PyText) : PlanState :=
  if isIgnored fileRelPath ignores then st
  else
    match findBestMatchingRule fileRelPath managed with
    | none => st
    | some rule =>
        if fileRelPath ∈ st.processed then st
        else
          let processed := st.processed ++ [fileRelPath]
          let repoExists := fileRelPath ∈ repoFiles
          let ty :=
            if rule.strategy = .enforce then
              (if repoExists then ChangeType.overwrite else ChangeType.create)
            else if rule.strategy = .preserve then
              (if repoExists then ChangeType.skip else ChangeType.create)
            else if rule.strategy = .merge then
              (if repoExists then ChangeType.conflict else ChangeType.create)
            else ChangeType.unknown
          let newConflicts :=
            if rule.strategy = .merge ∧ repoExists then st.conflicts + 1
            else st.conflicts
          ⟨processed, st.changes ++ [⟨fileRelPath, rule.strategy, ty, rule.path⟩],
            newConflicts⟩

/-- The body of `plan_upgrade`'s second loop (managed files missing from the
new template), for one repository file matching the managed pattern. -/
def loop2Step (targetFiles repoFiles : List PyText) (ignores : List PyText)
    (managedPath : ManagedPath) (st : PlanState) (fileRelPath : PyText) : PlanState :=
  if fileRelPath ∈ targetFiles then st
  else if isIgnored fileRelPath ignores then st
  else if fileRelPath ∈ st.processed then st
  else
    let processed := st.processed ++ [fileRelPath]
    if fileRelPath ∈ repoFiles then
      let ty :=
        if managedPath.strategy = .enforce then ChangeType.delete
        else if managedPath.strategy = .preserve then ChangeType.keep
        else if managedPath.strategy = .merge then
          (if fileWasModifiedLocally repoFiles fileRelPath then ChangeType.orphan
           else ChangeType.delete)
        else ChangeType.unknown
      let newConflicts :=
        if managedPath.strategy = .merge ∧ fileWasModifiedLocally repoFiles fileRelPath
        then st.conflicts + 1 else st.conflicts
      ⟨processed, st.changes ++ [⟨fileRelPath, managedPath.strategy, ty, managedPath.path⟩],
        newConflicts⟩
    else ⟨processed, st.changes, st.conflicts⟩

structure PlanResult where
  changes : List Change
  conflicts : Nat
deriving DecidableEq, Repr

/-- `RetemplarCore.plan_upgrade` (the reconciliation part: both loops over
the sorted-by-enumeration file sets). -/
def planUpgrade (targetFiles repoFiles : List PyText) (managed : List ManagedPath)
    (ignores : List PyText) : PlanResult :=
  let st1 := targetFiles.foldl (loop1Step repoFiles managed ignores) ⟨[], [], 0⟩
  let st2 := managed.foldl
    (fun st managedPath =>
      (repoFiles.filter (fun p => matchesPattern p managedPath.path)).foldl
        (loop2Step targetFiles repoFiles ignores managedPath) st)
    st1
  ⟨st2.changes, st2.conflicts⟩

/-- `RetemplarCore._merge_with_conflicts(local, remote)`: whole-file conflict
markers around both inputs, `has_conflicts = True` unconditionally. -/
def coreMergeWithConflicts (localContent remoteContent : PyText) : PyText × Bool :=
  let l := if endsNl localContent then localContent else localContent ++ ['\n']
  let r := if endsNl remoteContent then remoteContent else remoteContent ++ ['\n']
  (pyOf "<<<<<<< LOCAL (current)\n" ++ l ++ pyOf "=======\n" ++ r ++
    pyOf ">>>>>>> REMOTE (template)\n", true)

/-- `RetemplarCore._get_baseline_content()`: the MVP baseline is empty. -/
def getBaselineContent : PyText := []

/-- `RetemplarCore._three_way_merge(base, local, remote)`.
`list(difflib.unified_diff(x, y, n=0))` is empty exactly when the two line
sequences are equal: `get_grouped_opcodes` yields no group when the opcodes
are a single `equal` (or empty), and the `---`/`+++` headers are emitted
lazily with the first group. -/
def threeWayMerge (baseContent localContent remoteContent : PyText) : PyText × Bool :=
  let baseLines := splitKeep baseContent
  let localLines := splitKeep localContent
  let remoteLines := splitKeep remoteContent
  if baseLines = localLines then (remoteContent, false)
  else if baseLines = remoteLines then (localContent, false)
  else coreMergeWithConflicts localContent remoteContent

/-- `PurePath.suffix` of a file name: from the last `.`, when it is neither
at the start nor at the very end. -/
def pySuffix (name : PyText) : PyText :=
  match ((List.range name.length).filter
      (fun i => name.get? i = some '.')).getLast? with
  | some i => if 0 < i ∧ i < name.length - 1 then name.drop i else []
  | none => []

/-- `PurePath.with_suffix(s)` on a file name: strip the old suffix, append
the new one. -/
def withSuffixName (name suffix : PyText) : PyText :=
  (if pySuffix name ≠ [] then name.take (name.length - (pySuffix name).length)
   else name) ++ suffix

/-- The name `_mark_orphaned` renames to:
`file_path.with_suffix(file_path.suffix + ".orphaned")`. -/
def orphanedName (name : PyText) : PyText :=
  withSuffixName name (pySuffix name ++ pyOf ".orphaned")

/-- Split a relative posix path into directory prefix (with trailing `/`)
and final component. -/
def splitDirName (p : PyText) : PyText × PyText :=
  let rname := p.reverse.takeWhile (· ≠ '/')
  (p.take (p.length - rname.length), rname.reverse)

/-- `_mark_orphaned`'s target path: the directory is unchanged, the name
gets the `.orphaned` treatment. -/
def orphanedPath (p : PyText) : PyText :=
  (splitDirName p).1 ++ orphanedName (splitDirName p).2

/-- Abstract file tree: relative posix path to text content. -/
abbrev Fs := PyText → Option PyText

def fsSet (fs : Fs) (p : PyText) (v : Option PyText) : Fs :=
  fun q => if q = p then v else fs q

/-- `_copy_file(template/tree path, repo path)` (metadata copying by
`shutil.copy2` has no analogue in the content map). -/
def copyFile (tmplFs : Fs) (fs : Fs) (p : PyText) : Fs :=
  fsSet fs p (tmplFs p)

/-- `_delete_file` (the best-effort empty-parent `rmdir` has no analogue in
the flat path map). -/
def deleteFile (fs : Fs) (p : PyText) : Fs :=
  match fs p with
  | some _ => fsSet fs p none
  | none => fs

/-- `_mark_orphaned`: rename `p` to `orphanedPath p` when it exists. -/
def markOrphaned (fs : Fs) (p : PyText) : Fs :=
  match fs p with
  | some content => fsSet (fsSet fs p none) (orphanedPath p) (some content)
  | none => fs

structure ApplyState where
  fs : Fs
  filesChanged : Nat
  conflictsResolved : Nat

/-- One iteration of `apply_changes`' loop over the plan's changes.  The
reads `read_text` on the two sides of a merge are total here; the source
would raise on a missing file, a case the plan never produces. -/
def applyOne (tmplFs : Fs) (st : ApplyState) (change : Change) : ApplyState :=
  match change.strategy with
  | .enforce =>
      if change.type = .create ∨ change.type = .overwrite then
        ⟨copyFile tmplFs st.fs change.file, st.filesChanged + 1, st.conflictsResolved⟩
      else if change.type = .delete then
        ⟨deleteFile st.fs change.file, st.filesChanged + 1, st.conflictsResolved⟩
      else st
  | .preserve =>
      if change.type = .create then
        ⟨copyFile tmplFs st.fs change.file, st.filesChanged + 1, st.conflictsResolved⟩
      else st
  | .merge =>
      if change.type = .conflict then
        match st.fs change.file, tmplFs change.file with
        | some localContent, some remoteContent =>
            let m := threeWayMerge getBaselineContent localContent remoteContent
            ⟨fsSet st.fs change.file (some m.1), st.filesChanged + 1,
             st.conflictsResolved + if m.2 then 1 else 0⟩
        | _, _ => st
      else if change.type = .create then
        ⟨copyFile tmplFs st.fs change.file, st.filesChanged + 1, st.conflictsResolved⟩
      else if change.type = .delete then
        ⟨deleteFile st.fs change.file, st.filesChanged + 1, st.conflictsResolved⟩
      else if change.type = .orphan then
        ⟨markOrphaned st.fs change.file, st.filesChanged, st.conflictsResolved + 1⟩
      else st

/-- The file-level part of `apply_changes`: replay the plan items. -/
def applyChanges (tmplFs : Fs) (fs0 : Fs) (changes : List Change) : ApplyState :=
  changes.foldl (applyOne tmplFs) ⟨fs0, 0, 0⟩

/-- The lock-record part of `apply_changes`:
`current_lock.model_copy(update={"applied_ref": target_source.ref,
"applied_commit": target_source.commit})`.  Pydantic's `model_copy` does not
re-run validators, so no other field changes. -/
def applyLockUpdate (lock : RetemplarLock) (targetSource : TemplateSource) :
    RetemplarLock :=
  { lock with
    appliedRef := some targetSource.ref
    appliedCommit := targetSource.commit }

end Core

namespace Lockfile

/-!
### `src/retemplar/lockfile.py`
-/


def lockfileName : PyText := pyOf ".retemplar.lock"

/-- `self.lockfile_path.with_suffix(".tmp")` (i.e. `.retemplar.tmp`). -/
def tempName : PyText := Core.withSuffixName lockfileName (pyOf ".tmp")

structure WriteOutcome where
  ok : Bool
  fs : Core.Fs

/-- `LockfileManager.write`: validate, serialize, write the temporary file,
rename it over the lock path.  A failure at any stage is caught by the
handler, which removes the temporary file (if present) and raises
`LockfileError`.  The three `…Ok` flags inject failures of the three stages
before the rename; `broken` is whatever partial content a failing temp write
left behind. -/
def write (fs : Core.Fs) (validateOk serializeOk writeTempOk : Bool)
    (serialized broken : PyText) : WriteOutcome :=
  if !validateOk then ⟨false, Core.fsSet fs tempName none⟩
  else if !serializeOk then ⟨false, Core.fsSet fs tempName none⟩
  else if !writeTempOk then
    ⟨false, Core.fsSet (Core.fsSet fs tempName (some broken)) tempName none⟩
  else
    ⟨true, Core.fsSet (Core.fsSet fs tempName none) lockfileName (some serialized)⟩

end Lockfile

namespace Schema

/-- The accumulator step of `dedupeManaged`, named for the proofs. -/
def dedupeStep (deduped : List ManagedPath) (r : ManagedPath) : List ManagedPath :=
  if deduped.any (fun d => d.path = r.path) then deduped else deduped ++ [r]

end Schema

/-!
### The claims
-/

/-- Follows the spec's words (path matching): the pattern equals the path, or
standard glob wildcards in the pattern match the full posix path, or the
pattern ends in `/**` and the path equals the pattern's directory prefix or
lies strictly below it.  Both sides are posix-normalized, as the code's
`match` normalizes its inputs. -/
def specMatch (path pattern : PyText) : Bool :=
  decide (pyPosix path = pyPosix pattern) ||
  FsUtils.globMatch (pyPosix pattern) (pyPosix path) ||
  ((pyOf "/**").isSuffixOf (pyPosix pattern) &&
    (decide (pyPosix path = (pyPosix pattern).take ((pyPosix pattern).length - 3)) ||
      ((pyPosix pattern).take ((pyPosix pattern).length - 3) ++ pyOf "/").isPrefixOf
        (pyPosix path)))

/-!
### Theorems
-/

set_option maxHeartbeats 1000000 in
/-- Joining the lines of `splitlines(keepends=True)` restores the text. -/
theorem splitKeepAux_flatten (acc : List Char) (l : List Char) :
    (splitKeepAux acc l).flatten = acc.reverse ++ l := by
  induction acc, l using splitKeepAux.induct with
  | case1 acc h =>
      have : acc = [] := List.isEmpty_iff.mp h
      subst this
      simp [splitKeepAux]
  | case2 acc h =>
      simp [splitKeepAux, h]
  | case3 acc rest ih =>
      simp [splitKeepAux, ih]
  | case4 acc c rest hne h ih =>
      rw [splitKeepAux, if_pos h]
      · simp [ih]
      · exact hne
  | case5 acc c rest hne h ih =>
      rw [splitKeepAux, if_neg h]
      · simp [ih]
      · exact hne

theorem splitKeep_flatten (s : PyText) : (splitKeep s).flatten = s := by
  simpa using splitKeepAux_flatten [] s

theorem endsNl_append_nl (s : PyText) : endsNl (s ++ ['\n']) = true := by
  simp [endsNl]

/-- A stripped text never ends with a newline. -/
theorem endsNl_rstripNl (s : PyText) : endsNl (rstripNl s) = false := by
  unfold endsNl rstripNl
  rcases h : s.reverse.dropWhile (· = '\n') with _ | ⟨c, t⟩
  · simp
  · have hc : ¬ (c = '\n') := by
      have := List.head?_dropWhile_not (p := fun x => x = '\n') s.reverse
      rw [h] at this
      simpa using this
    simp [List.getLast?_reverse, h, hc]

/-- If a text does not end with `'\n'`, `rstrip("\n")` leaves it unchanged. -/
theorem rstripNl_of_not_endsNl (s : PyText) (h : endsNl s = false) :
    rstripNl s = s := by
  unfold rstripNl
  rcases hs : s.reverse with _ | ⟨c, t⟩
  · simpa using congrArg List.reverse hs
  · have hc : c ≠ '\n' := by
      intro hceq
      subst hceq
      unfold endsNl at h
      rw [← List.head?_reverse, hs] at h
      simp at h
    rw [List.dropWhile_cons_of_neg (by simpa using hc), ← hs]
    simp

namespace Difflib

variable {α : Type} [DecidableEq α]

theorem mem_occurrences {b : List α} {v : α} {j : Nat} :
    j ∈ occurrences b v ↔ j < b.length ∧ b.get? j = some v := by
  simp [occurrences, List.mem_filter, List.mem_range]

theorem memb_iff {a : List α} {i j : Nat} :
    memb a i j ↔
      ∃ v, a.get? i = some v ∧ a.get? j = some v ∧ isPopular a v = false := by
  unfold memb rowJs
  cases hv : a.get? i with
  | none => simp
  | some v =>
      simp only [b2j]
      by_cases hp : isPopular a v = true
      · simp only [hp, if_pos]
        constructor
        · intro h; cases h
        · rintro ⟨w, hw, -, hpw⟩
          cases hw; rw [hp] at hpw; cases hpw
      · rw [if_neg hp]
        rw [mem_occurrences]
        constructor
        · rintro ⟨-, hj⟩
          exact ⟨v, rfl, hj, by simpa using hp⟩
        · rintro ⟨w, hw, hj, -⟩
          cases hw
          exact ⟨by exact (List.get?_eq_some.mp hj).1, hj⟩

theorem memb.lt_len {a : List α} {i j : Nat} (h : memb a i j) : j < a.length := by
  obtain ⟨v, -, hj, -⟩ := memb_iff.mp h
  exact (List.get?_eq_some.mp hj).1

theorem memb.lt_len_left {a : List α} {i j : Nat} (h : memb a i j) : i < a.length := by
  obtain ⟨v, hi, -, -⟩ := memb_iff.mp h
  exact (List.get?_eq_some.mp hi).1

theorem memb.self_left {a : List α} {i j : Nat} (h : memb a i j) : memb a i i := by
  obtain ⟨v, hi, -, hp⟩ := memb_iff.mp h
  exact memb_iff.mpr ⟨v, hi, hi, hp⟩

theorem memb.self_right {a : List α} {i j : Nat} (h : memb a i j) : memb a j j := by
  obtain ⟨v, -, hj, hp⟩ := memb_iff.mp h
  exact memb_iff.mpr ⟨v, hj, hj, hp⟩

theorem chainLen_zeroFun (j : Nat) : chainLen (fun _ => 0) j = 1 := by
  cases j <;> rfl

theorem rowv_eq (a : List α) (i j : Nat) :
    rowv a i j = if memb a i j then chainLen (prevRow a i) j else 0 := by
  cases i <;> cases j <;> rfl

theorem one_le_runLen {a : List α} {j : Nat} (h : memb a j j) : 1 ≤ runLen a j := by
  cases j <;> simp [runLen, h]

theorem runLen_eq_zero {a : List α} {i : Nat} (h : ¬ memb a i i) : runLen a i = 0 := by
  cases i <;> simp [runLen, h]

theorem runLen_le_succ (a : List α) (i : Nat) : runLen a i ≤ i + 1 := by
  induction i with
  | zero => unfold runLen; split <;> omega
  | succ i ih => unfold runLen; split <;> omega

theorem rowv_le_runLen_right (a : List α) : ∀ i j, rowv a i j ≤ runLen a j := by
  intro i
  induction i with
  | zero =>
      intro j
      unfold rowv
      split
      · next h => rw [chainLen_zeroFun]; exact one_le_runLen h.self_right
      · exact Nat.zero_le _
  | succ i ih =>
      intro j
      unfold rowv
      split
      · next h =>
          cases j with
          | zero => exact one_le_runLen h.self_right
          | succ j' =>
              have hj : memb a (j' + 1) (j' + 1) := h.self_right
              have hr : runLen a (j' + 1) = runLen a j' + 1 := by simp [runLen, hj]
              rw [hr]
              exact Nat.succ_le_succ (ih j')
      · exact Nat.zero_le _

theorem rowv_le_runLen_left (a : List α) : ∀ i j, rowv a i j ≤ runLen a i := by
  intro i
  induction i with
  | zero =>
      intro j
      unfold rowv
      split
      · next h => rw [chainLen_zeroFun]; exact one_le_runLen h.self_left
      · exact Nat.zero_le _
  | succ i ih =>
      intro j
      unfold rowv
      split
      · next h =>
          have hi : memb a (i + 1) (i + 1) := h.self_left
          have hr : runLen a (i + 1) = runLen a i + 1 := by simp [runLen, hi]
          rw [hr]
          cases j with
          | zero => exact Nat.succ_le_succ (Nat.zero_le _)
          | succ j' => exact Nat.succ_le_succ (ih j')
      · exact Nat.zero_le _

theorem rowv_diag (a : List α) : ∀ i, memb a i i → rowv a i i = runLen a i := by
  intro i
  induction i with
  | zero => intro h; simp [rowv, runLen, h, chainLen_zeroFun]
  | succ i ih =>
      intro h
      by_cases hi : memb a i i
      · simp only [rowv, if_pos h, chainLen, runLen, ih hi]
      · have h1 : rowv a i i = 0 := by rw [rowv_eq, if_neg hi]
        have h2 : runLen a i = 0 := runLen_eq_zero hi
        simp [rowv, runLen, h, chainLen, h1, h2]

theorem runLen_le_maxRun (a : List α) : ∀ i j, j < i → runLen a j ≤ maxRun a i := by
  intro i
  induction i with
  | zero => intro j h; omega
  | succ i ih =>
      intro j h
      rcases Nat.lt_succ_iff_lt_or_eq.mp h with h' | h'
      · exact le_trans (ih j h') (le_max_left _ _)
      · subst h'; exact le_max_right _ _

theorem pairwise_rowJs (a b : List α) (i : Nat) :
    (rowJs a b i).Pairwise (· < ·) := by
  unfold rowJs
  cases a.get? i with
  | none => exact List.Pairwise.nil
  | some v =>
      show List.Pairwise (· < ·) (if isPopular b v = true then [] else occurrences b v)
      by_cases hp : isPopular b v = true
      · rw [if_pos hp]; exact List.Pairwise.nil
      · rw [if_neg hp]; exact (List.pairwise_lt_range _).filter _

/-- Unfolding one step of the inner loop when neither `continue` nor `break`
fires. -/
theorem flmInner_cons (blo bhi i : Nat) (prev : Nat → Nat) (j : Nat)
    (js : List Nat) (acc : Nat → Nat) (best : Match3)
    (h1 : ¬ j < blo) (h2 : ¬ bhi ≤ j) :
    flmInner blo bhi i prev (j :: js) acc best =
      flmInner blo bhi i prev js
        (fun j2 => if j2 = j then chainLen prev j else acc j2)
        (if best.size < chainLen prev j then
           ⟨i + 1 - chainLen prev j, j + 1 - chainLen prev j, chainLen prev j⟩
         else best) := by
  simp only [flmInner]
  rw [if_neg h1, if_neg h2]

/-- Inner-loop invariant on the self-comparison `(a, a)`: over any sorted
suffix of the scannable positions of row `i`, the best match stays on the
diagonal, stays inside the range, dominates all runs up to (and after the
diagonal position, including) row `i`, and the output `j2len` row is `rowv`. -/
theorem flmInner_self (a : List α) (i : Nat) (prev : Nat → Nat)
    (hprev : ∀ j, prev j = prevRow a i j) :
    ∀ (S : List Nat) (acc : Nat → Nat) (best : Match3),
      (∀ j ∈ S, memb a i j) →
      S.Pairwise (· < ·) →
      best.besti = best.bestj →
      best.besti + best.size ≤ a.length →
      maxRun a i ≤ best.size →
      (i ∈ S ∨ runLen a i ≤ best.size) →
      ((flmInner 0 a.length i prev S acc best).2.besti =
          (flmInner 0 a.length i prev S acc best).2.bestj ∧
        (flmInner 0 a.length i prev S acc best).2.besti +
          (flmInner 0 a.length i prev S acc best).2.size ≤ a.length ∧
        maxRun a i ≤ (flmInner 0 a.length i prev S acc best).2.size ∧
        runLen a i ≤ (flmInner 0 a.length i prev S acc best).2.size ∧
        (∀ j0, (flmInner 0 a.length i prev S acc best).1 j0 =
          if j0 ∈ S then rowv a i j0 else acc j0)) := by
  intro S
  induction S with
  | nil =>
      intro acc best hmem hpw hdiag hbound hmax hdisj
      have hrun : runLen a i ≤ best.size := by
        rcases hdisj with h | h
        · cases h
        · exact h
      refine ⟨hdiag, hbound, hmax, hrun, ?_⟩
      intro j0; simp [flmInner]
  | cons j S' ih =>
      intro acc best hmem hpw hdiag hbound hmax hdisj
      have hmj : memb a i j := hmem j (by simp)
      have hjlen : j < a.length := hmj.lt_len
      have hk : chainLen prev j = rowv a i j := by
        rw [rowv_eq, if_pos hmj]
        cases j with
        | zero => rfl
        | succ j' => show prev j' + 1 = prevRow a i j' + 1; rw [hprev j']
      rw [flmInner_cons 0 a.length i prev j S' acc best (by omega) (by omega), hk]
      have hmem' : ∀ j0 ∈ S', memb a i j0 := fun j0 h0 => hmem j0 (by simp [h0])
      have hpw' : S'.Pairwise (· < ·) := hpw.of_cons
      have hgt : ∀ x ∈ S', j < x := fun x hx => List.rel_of_pairwise_cons hpw hx
      by_cases hup : best.size < rowv a i j
      · -- strict improvement: this forces `j = i`
        have hji : j = i := by
          rcases lt_trichotomy j i with hlt | heq | hgt'
          · exfalso
            have hb1 : rowv a i j ≤ runLen a j := rowv_le_runLen_right a i j
            have hb2 : runLen a j ≤ maxRun a i := runLen_le_maxRun a i j hlt
            omega
          · exact heq
          · exfalso
            have hnotin : i ∉ j :: S' := by
              intro hin
              rcases List.mem_cons.mp hin with h | h
              · omega
              · have := hgt i h; omega
            have hrun : runLen a i ≤ best.size := by
              rcases hdisj with h | h
              · exact absurd h hnotin
              · exact h
            have hb1 : rowv a i j ≤ runLen a i := rowv_le_runLen_left a i j
            omega
        subst hji
        rw [if_pos hup]
        have hkrun : rowv a j j = runLen a j := rowv_diag a j hmj
        have hkle : rowv a j j ≤ j + 1 := by rw [hkrun]; exact runLen_le_succ a j
        obtain ⟨c1, c2, c3, c4, c5⟩ := ih
          (fun j2 => if j2 = j then rowv a j j else acc j2)
          ⟨j + 1 - rowv a j j, j + 1 - rowv a j j, rowv a j j⟩
          hmem' hpw' rfl (by simp only; omega)
          (by simp only; omega)
          (Or.inr (by simp only; omega))
        refine ⟨c1, c2, c3, c4, ?_⟩
        intro j0
        rw [c5 j0]
        by_cases h0 : j0 ∈ S'
        · simp [h0]
        · by_cases h0j : j0 = j
          · subst h0j; simp [h0]
          · simp [h0, h0j]
      · -- no improvement: the best match is unchanged
        rw [if_neg hup]
        obtain ⟨c1, c2, c3, c4, c5⟩ := ih
          (fun j2 => if j2 = j then rowv a i j else acc j2)
          best hmem' hpw' hdiag hbound hmax
          (by
            rcases hdisj with h | h
            · rcases List.mem_cons.mp h with hcase | hcase
              · subst hcase
                refine Or.inr ?_
                have := rowv_diag a i hmj
                omega
              · exact Or.inl hcase
            · exact Or.inr h)
        refine ⟨c1, c2, c3, c4, ?_⟩
        intro j0
        rw [c5 j0]
        by_cases h0 : j0 ∈ S'
        · simp [h0]
        · by_cases h0j : j0 = j
          · subst h0j; simp [h0]
          · simp [h0, h0j]

/-- One step of the outer loop. -/
theorem flmRows_cons (a b : List α) (blo bhi i : Nat) (is : List Nat)
    (j2len : Nat → Nat) (best : Match3) :
    flmRows a b blo bhi (i :: is) j2len best =
      flmRows a b blo bhi is
        (flmInner blo bhi i j2len (rowJs a b i) (fun _ => 0) best).1
        (flmInner blo bhi i j2len (rowJs a b i) (fun _ => 0) best).2 := by
  rcases hout : flmInner blo bhi i j2len (rowJs a b i) (fun _ => 0) best with ⟨acc, best2⟩
  simp [flmRows, hout]

/-- Outer-loop invariant on the self-comparison: the dynamic-programming
phase ends with a diagonal best match inside the range. -/
theorem flmRows_self (a : List α) :
    ∀ (cnt i0 : Nat) (prev : Nat → Nat) (best : Match3),
      (∀ j, prev j = prevRow a i0 j) →
      best.besti = best.bestj →
      best.besti + best.size ≤ a.length →
      maxRun a i0 ≤ best.size →
      ((flmRows a a 0 a.length (List.range' i0 cnt) prev best).besti =
          (flmRows a a 0 a.length (List.range' i0 cnt) prev best).bestj ∧
        (flmRows a a 0 a.length (List.range' i0 cnt) prev best).besti +
          (flmRows a a 0 a.length (List.range' i0 cnt) prev best).size ≤ a.length) := by
  intro cnt
  induction cnt with
  | zero =>
      intro i0 prev best _ hdiag hbound _
      exact ⟨hdiag, hbound⟩
  | succ cnt ih =>
      intro i0 prev best hprev hdiag hbound hmax
      have hrange : List.range' i0 (cnt + 1) = i0 :: List.range' (i0 + 1) cnt := rfl
      rw [hrange, flmRows_cons]
      have hdisj : i0 ∈ rowJs a a i0 ∨ runLen a i0 ≤ best.size := by
        by_cases hd : memb a i0 i0
        · exact Or.inl hd
        · exact Or.inr (by rw [runLen_eq_zero hd]; exact Nat.zero_le _)
      obtain ⟨c1, c2, c3, c4, c5⟩ :=
        flmInner_self a i0 prev hprev (rowJs a a i0) (fun _ => 0) best
          (fun _ hj => hj) (pairwise_rowJs a a i0) hdiag hbound hmax hdisj
      refine ih (i0 + 1)
        (flmInner 0 a.length i0 prev (rowJs a a i0) (fun _ => 0) best).1
        (flmInner 0 a.length i0 prev (rowJs a a i0) (fun _ => 0) best).2
        ?_ c1 c2 ?_
      · intro j
        have hpr : prevRow a (i0 + 1) j = rowv a i0 j := rfl
        rw [c5 j, hpr]
        by_cases hj : j ∈ rowJs a a i0
        · rw [if_pos hj]
        · rw [if_neg hj]
          have hjm : ¬ memb a i0 j := hj
          rw [rowv_eq, if_neg hjm]
      · show max (maxRun a i0) (runLen a i0) ≤ _
        exact max_le c3 c4

theorem sameAt_self {a : List α} {i : Nat} (h : i < a.length) :
    sameAt a a i i = true := by
  unfold sameAt
  cases hv : a.get? i with
  | none =>
      rw [List.get?_eq_none] at hv
      omega
  | some v => simp

/-- On a diagonal match the backward extension loop runs all the way to 0. -/
theorem extendLower_diag (a : List α) :
    ∀ (fuel m s : Nat), m ≤ a.length → m ≤ fuel →
      extendLower a a 0 0 fuel ⟨m, m, s⟩ = ⟨0, 0, s + m⟩ := by
  intro fuel
  induction fuel with
  | zero =>
      intro m s _ hf
      have : m = 0 := Nat.le_zero.mp hf
      subst this
      rfl
  | succ fuel ih =>
      intro m s hlen hf
      cases m with
      | zero =>
          show (if (0:Nat) < 0 ∧ (0:Nat) < 0 ∧ sameAt a a (0 - 1) (0 - 1) = true
            then _ else Match3.mk 0 0 s) = Match3.mk 0 0 (s + 0)
          rw [if_neg (by omega), Nat.add_zero]
      | succ m' =>
          show (if 0 < m' + 1 ∧ 0 < m' + 1 ∧ sameAt a a (m' + 1 - 1) (m' + 1 - 1) = true
            then extendLower a a 0 0 fuel ⟨m' + 1 - 1, m' + 1 - 1, s + 1⟩ else _) = _
          rw [if_pos ⟨by omega, by omega, by
            simpa using sameAt_self (a := a) (i := m') (by omega)⟩]
          have hrw : m' + 1 - 1 = m' := rfl
          rw [hrw, ih m' (s + 1) (by omega) (by omega)]
          have : s + 1 + m' = s + (m' + 1) := by omega
          rw [this]

/-- On a diagonal match at 0 the forward extension loop runs to the range end. -/
theorem extendUpper_diag (a : List α) :
    ∀ (fuel s : Nat), s ≤ a.length → a.length - s ≤ fuel →
      extendUpper a a a.length a.length fuel ⟨0, 0, s⟩ = ⟨0, 0, a.length⟩ := by
  intro fuel
  induction fuel with
  | zero =>
      intro s hs hf
      have : s = a.length := by omega
      subst this
      rfl
  | succ fuel ih =>
      intro s hs hf
      by_cases hlt : s < a.length
      · show (if 0 + s < a.length ∧ 0 + s < a.length ∧ sameAt a a (0 + s) (0 + s) = true
          then extendUpper a a a.length a.length fuel ⟨0, 0, s + 1⟩ else _) = _
        rw [if_pos ⟨by omega, by omega, by
          simpa [Nat.zero_add] using sameAt_self (a := a) (i := s) hlt⟩]
        exact ih (s + 1) (by omega) (by omega)
      · have hseq : s = a.length := by omega
        subst hseq
        show (if 0 + a.length < a.length ∧ 0 + a.length < a.length ∧
            sameAt a a (0 + a.length) (0 + a.length) = true
          then extendUpper a a a.length a.length fuel ⟨0, 0, a.length + 1⟩
          else Match3.mk 0 0 a.length) = Match3.mk 0 0 a.length
        rw [if_neg (by rintro ⟨h1, -, -⟩; omega)]

/-- `find_longest_match(0, len, 0, len)` on identical sequences returns the
whole range. -/
theorem findLongestMatch_self (a : List α) :
    findLongestMatch a a 0 a.length 0 a.length = ⟨0, 0, a.length⟩ := by
  obtain ⟨hdiag, hbound⟩ :=
    flmRows_self a a.length 0 (fun _ => 0) ⟨0, 0, 0⟩ (fun _ => rfl) rfl
      (by simp) (by simp [maxRun])
  unfold findLongestMatch
  rw [Nat.sub_zero]
  rcases hm : flmRows a a 0 a.length (List.range' 0 a.length) (fun _ => 0) ⟨0, 0, 0⟩
    with ⟨bi, bj, bs⟩
  rw [hm] at hdiag hbound
  simp only at hdiag hbound
  subst hdiag
  simp only
  rw [extendLower_diag a bi bi bs (by omega) (le_refl bi)]
  rw [extendUpper_diag a a.length (bs + bi) (by omega) (by omega)]

theorem gmbLoop_nil (a b : List α) (fuel : Nat) (acc : List Match3) :
    gmbLoop a b fuel [] acc = acc := by
  cases fuel <;> rfl

/-- `get_matching_blocks` on identical nonempty sequences: one full-range
block plus the sentinel. -/
theorem getMatchingBlocks_self (a : List α) (h : a.length ≠ 0) :
    getMatchingBlocks a a = [⟨0, 0, a.length⟩, ⟨a.length, a.length, 0⟩] := by
  have hflm := findLongestMatch_self a
  unfold getMatchingBlocks
  rw [show a.length + a.length + 1 = (a.length + a.length) + 1 from rfl]
  rw [gmbLoop, hflm]
  simp only
  rw [if_pos (Nat.pos_of_ne_zero h)]
  rw [if_neg (by omega : ¬ ((0:Nat) < 0 ∧ (0:Nat) < 0))]
  rw [if_neg (by omega : ¬ (0 + a.length < a.length ∧ 0 + a.length < a.length))]
  rw [gmbLoop_nil]
  have hsort : sortM3 [(⟨0, 0, a.length⟩ : Match3)] = [⟨0, 0, a.length⟩] := rfl
  rw [hsort]
  have hmerge : mergeAdj (0, 0, 0) [(⟨0, 0, a.length⟩ : Match3)] =
      [(⟨0, 0, a.length⟩ : Match3)] := by
    show (if (0:Nat) + 0 = 0 ∧ (0:Nat) + 0 = 0 then mergeAdj (0, 0, 0 + a.length) []
      else if (0:Nat) ≠ 0 then Match3.mk 0 0 0 :: mergeAdj (0, 0, a.length) []
      else mergeAdj (0, 0, a.length) []) = _
    rw [if_pos ⟨rfl, rfl⟩]
    show (if 0 + a.length ≠ 0 then [(⟨0, 0, 0 + a.length⟩ : Match3)] else []) = _
    rw [if_pos (by omega), Nat.zero_add]
  rw [hmerge]
  rfl

/-- `get_opcodes` on identical nonempty sequences: a single `equal` opcode. -/
theorem getOpcodes_self (a : List α) (h : a.length ≠ 0) :
    getOpcodes a a = [(OpTag.equal, 0, a.length, 0, a.length)] := by
  unfold getOpcodes
  rw [getMatchingBlocks_self a h]
  show (if (0:Nat) < 0 ∧ (0:Nat) < 0 then _ else if (0:Nat) < 0 then _
      else if (0:Nat) < 0 then _ else ([] : List Opcode)) ++
    (if 0 < a.length then [(OpTag.equal, 0, 0 + a.length, 0, 0 + a.length)] else []) ++
    opcodesFrom (0 + a.length) (0 + a.length) [⟨a.length, a.length, 0⟩] = _
  rw [if_neg (by omega : ¬ ((0:Nat) < 0 ∧ (0:Nat) < 0))]
  rw [if_neg (by omega : ¬ ((0:Nat) < 0)), if_neg (by omega : ¬ ((0:Nat) < 0))]
  rw [if_pos (Nat.pos_of_ne_zero h), Nat.zero_add]
  show [(OpTag.equal, 0, a.length, 0, a.length)] ++
    ((if a.length < a.length ∧ a.length < a.length then _ else if a.length < a.length
      then _ else if a.length < a.length then _ else ([] : List Opcode)) ++
     (if (0:Nat) < 0 then _ else ([] : List Opcode)) ++ opcodesFrom _ _ []) = _
  rw [if_neg (by omega : ¬ (a.length < a.length ∧ a.length < a.length))]
  rw [if_neg (lt_irrefl a.length), if_neg (lt_irrefl a.length),
    if_neg (by omega : ¬ ((0:Nat) < 0))]
  rfl

end Difflib

namespace MergeUtils

open Difflib Blockprotect

theorem mergeSimple_self (l : List PyText) : mergeSimple l l = l := by
  unfold mergeSimple
  by_cases h : l.length = 0
  · have : l = [] := List.length_eq_zero.mp h
    subst this
    rfl
  · rw [Difflib.getOpcodes_self l h]
    simp [pySlice]

theorem mergeWithBlocks_self (l : List PyText) (blocks : List (PyText × Blockprotect.Span)) :
    mergeWithBlocks l l blocks = l := by
  unfold mergeWithBlocks
  by_cases h : l.length = 0
  · have : l = [] := List.length_eq_zero.mp h
    subst this
    rfl
  · rw [Difflib.getOpcodes_self l h]
    simp [pySlice]

theorem normalizeTrailingNewline_self (x : PyText) :
    normalizeTrailingNewline x x = x := by
  unfold normalizeTrailingNewline
  by_cases h : x = []
  · simp [h]
  · rw [if_neg h]
    by_cases he : endsNl x
    · simp [he]
    · simp only [he, Bool.false_eq_true, if_false]
      exact rstripNl_of_not_endsNl x (by simpa using he)

/-- The TextMerger entry point is a no-op on identical inputs. -/
theorem mergeWithConflicts_self (x : PyText) : mergeWithConflicts x x = x := by
  show normalizeTrailingNewline
    (if Blockprotect.findIgnoreBlocks x = [] then
      mergeSimple (splitKeep x) (splitKeep x)
     else mergeWithBlocks (splitKeep x) (splitKeep x) (Blockprotect.findIgnoreBlocks x)).flatten
    x = x
  by_cases hb : Blockprotect.findIgnoreBlocks x = []
  · rw [if_pos hb, mergeSimple_self, splitKeep_flatten, normalizeTrailingNewline_self]
  · rw [if_neg hb, mergeWithBlocks_self, splitKeep_flatten, normalizeTrailingNewline_self]

/-- For a nonempty template, the merged output ends in a newline exactly when
the template does (the final `_normalize_trailing_newline` pass). -/
theorem mergeWithConflicts_trailing (ours theirs : PyText) (h : theirs ≠ []) :
    endsNl (mergeWithConflicts ours theirs) = endsNl theirs := by
  show endsNl (normalizeTrailingNewline
    (if Blockprotect.findIgnoreBlocks ours = [] then
      mergeSimple (splitKeep ours) (splitKeep theirs)
     else mergeWithBlocks (splitKeep ours) (splitKeep theirs)
       (Blockprotect.findIgnoreBlocks ours)).flatten
    theirs) = endsNl theirs
  generalize (if Blockprotect.findIgnoreBlocks ours = [] then
      mergeSimple (splitKeep ours) (splitKeep theirs)
     else mergeWithBlocks (splitKeep ours) (splitKeep theirs)
       (Blockprotect.findIgnoreBlocks ours)).flatten = r
  unfold normalizeTrailingNewline
  rw [if_neg h]
  by_cases he : endsNl theirs
  · rw [he, if_pos rfl]
    by_cases hr : endsNl r
    · rw [if_pos hr, hr]
    · rw [if_neg hr, endsNl_append_nl]
  · have he' : endsNl theirs = false := by simpa using he
    rw [he']
    simp only [Bool.false_eq_true, if_false]
    rw [endsNl_rstripNl]

end MergeUtils

/-!
### Properties of `pyPosix`
-/

theorem mem_splitSlash_no_slash : ∀ (s piece : PyText), piece ∈ splitSlash s → '/' ∉ piece := by
  intro s
  induction s using splitSlash.induct with
  | case1 =>
      intro piece h
      simp only [splitSlash, List.mem_singleton] at h
      subst h; simp
  | case2 rest ih =>
      intro piece h
      simp only [splitSlash, List.mem_cons] at h
      rcases h with h | h
      · subst h; simp
      · exact ih piece h
  | case3 c rest hne heq =>
      intro piece h
      rw [splitSlash] at h
      · rw [heq] at h
        simp only [List.mem_singleton] at h
        subst h
        intro hmem
        simp only [List.mem_singleton] at hmem
        exact hne (hmem.symm)
      · exact hne
  | case4 c rest hne h0 t0 heq ih =>
      intro piece h
      rw [splitSlash] at h
      · rw [heq] at h
        simp only [List.mem_cons] at h
        rcases h with h | h
        · subst h
          intro hmem
          simp only [List.mem_cons] at hmem
          rcases hmem with h | h
          · exact hne h.symm
          · exact ih h0 (by rw [heq]; exact List.mem_cons_self _ _) h
        · exact ih piece (by rw [heq]; exact List.mem_cons_of_mem _ h)
      · exact hne

theorem splitSlash_noslash (s : PyText) (h : '/' ∉ s) : splitSlash s = [s] := by
  induction s with
  | nil => rfl
  | cons c rest ih =>
      have hc : c ≠ '/' := fun hc => h (hc ▸ List.mem_cons_self _ _)
      have hr : '/' ∉ rest := fun hm => h (List.mem_cons_of_mem _ hm)
      rw [splitSlash]
      · rw [ih hr]
      · exact fun hc' => hc hc'

theorem splitSlash_append_sep (a b : PyText) (h : '/' ∉ a) :
    splitSlash (a ++ '/' :: b) = a :: splitSlash b := by
  induction a with
  | nil => rfl
  | cons c a' ih =>
      have hc : c ≠ '/' := fun hc => h (hc ▸ List.mem_cons_self _ _)
      have ha : '/' ∉ a' := fun hm => h (List.mem_cons_of_mem _ hm)
      show splitSlash (c :: (a' ++ '/' :: b)) = _
      rw [splitSlash]
      · rw [ih ha]
      · exact fun hc' => hc hc'

theorem joinSlash_cons (x : PyText) (xs : List PyText) (h : xs ≠ []) :
    joinSlash (x :: xs) = x ++ '/' :: joinSlash xs := by
  rcases xs with _ | ⟨y, ys⟩
  · exact absurd rfl h
  · show ((x :: y :: ys).intersperse (pyOf "/")).flatten = _
    rw [List.intersperse_cons₂]
    simp [joinSlash, pyOf]

theorem splitSlash_join (segs : List PyText) :
    segs ≠ [] → (∀ seg ∈ segs, '/' ∉ seg) → splitSlash (joinSlash segs) = segs := by
  induction segs with
  | nil => intro h; exact absurd rfl h
  | cons x xs ih =>
      intro _ hfree
      rcases hxs : xs with _ | ⟨y, ys⟩
      · show splitSlash (joinSlash [x]) = [x]
        have : joinSlash [x] = x := by simp [joinSlash]
        rw [this]
        exact splitSlash_noslash x (hfree x (List.mem_cons_self _ _))
      · rw [← hxs]
        have hxs' : xs ≠ [] := by rw [hxs]; simp
        rw [joinSlash_cons x xs hxs']
        rw [splitSlash_append_sep x (joinSlash xs) (hfree x (List.mem_cons_self _ _))]
        rw [ih hxs' (fun seg hs => hfree seg (List.mem_cons_of_mem _ hs))]

theorem takeWhile_append_of_head (p : Char → Bool) (a b : PyText)
    (ha : ∀ c ∈ a, p c = true) (hb : ∀ c, b.head? = some c → p c = false) :
    (a ++ b).takeWhile p = a := by
  induction a with
  | nil =>
      simp only [List.nil_append]
      rcases b with _ | ⟨c, t⟩
      · rfl
      · rw [List.takeWhile_cons_of_neg]
        simp [hb c rfl]
  | cons c a' ih =>
      rw [List.cons_append, List.takeWhile_cons_of_pos (ha c (List.mem_cons_self _ _))]
      rw [ih (fun x hx => ha x (List.mem_cons_of_mem _ hx))]

theorem pyPosixRoot_cases (s : PyText) :
    pyPosixRoot s = [] ∨ pyPosixRoot s = pyOf "/" ∨ pyPosixRoot s = pyOf "//" := by
  simp only [pyPosixRoot]
  split
  · exact Or.inr (Or.inr rfl)
  · split
    · exact Or.inr (Or.inl rfl)
    · exact Or.inl rfl

theorem pyPosixRoot_append (root body : PyText)
    (hroot : root = [] ∨ root = pyOf "/" ∨ root = pyOf "//")
    (hb : ∀ c, body.head? = some c → c ≠ '/') :
    pyPosixRoot (root ++ body) = root := by
  have htake : ((root ++ body).takeWhile (· = '/')) = root ++ body.takeWhile (· = '/') →
      True := fun _ => trivial
  have hwt : (root ++ body).takeWhile (· = '/') = root := by
    refine takeWhile_append_of_head _ root body ?_ ?_
    · intro c hc
      rcases hroot with h | h | h <;> subst h <;> simp_all [pyOf]
    · intro c hc
      simp [hb c hc]
  unfold pyPosixRoot
  rw [hwt]
  rcases hroot with h | h | h <;> subst h <;> rfl

theorem pyPosixSegs_append (root : PyText) (segs : List PyText)
    (hroot : root = [] ∨ root = pyOf "/" ∨ root = pyOf "//")
    (hne : segs ≠ []) (hfree : ∀ seg ∈ segs, '/' ∉ seg)
    (hP : ∀ seg ∈ segs, seg ≠ [] ∧ seg ≠ pyOf ".") :
    pyPosixSegs (root ++ joinSlash segs) = segs := by
  have hsplit : splitSlash (joinSlash segs) = segs := splitSlash_join segs hne hfree
  have hfilter : segs.filter (fun seg => decide (seg ≠ [] ∧ seg ≠ pyOf ".")) = segs := by
    rw [List.filter_eq_self]
    intro seg hs
    simpa using hP seg hs
  unfold pyPosixSegs
  rcases hroot with h | h | h <;> subst h
  · simpa [hsplit] using hfilter
  · show ((splitSlash ('/' :: joinSlash segs)).filter _) = segs
    rw [splitSlash, hsplit]
    simpa using hfilter
  · show ((splitSlash ('/' :: '/' :: joinSlash segs)).filter _) = segs
    rw [splitSlash, splitSlash, hsplit]
    simpa using hfilter

theorem joinSlash_head (s0 : PyText) (rest : List PyText) (h0 : s0 ≠ []) :
    ∃ c, (joinSlash (s0 :: rest)).head? = some c ∧ c ∈ s0 := by
  rcases hs0 : s0 with _ | ⟨c, t⟩
  · exact absurd hs0 h0
  · rcases rest with _ | ⟨y, ys⟩
    · refine ⟨c, ?_, by simp⟩
      show (joinSlash [c :: t]).head? = some c
      have : joinSlash [c :: t] = c :: t := by simp [joinSlash]
      rw [this]; rfl
    · rw [joinSlash_cons _ _ (by simp)]
      exact ⟨c, rfl, by simp⟩

theorem joinSlash_ne_nil (s0 : PyText) (rest : List PyText) (h0 : s0 ≠ []) :
    joinSlash (s0 :: rest) ≠ [] := by
  obtain ⟨c, hc, -⟩ := joinSlash_head s0 rest h0
  intro h
  rw [h] at hc
  cases hc

/-- `pyPosix` is idempotent: its outputs are already in normal form. -/
theorem pyPosix_idem (s : PyText) : pyPosix (pyPosix s) = pyPosix s := by
  have hP : ∀ seg ∈ pyPosixSegs s, seg ≠ [] ∧ seg ≠ pyOf "." := by
    intro seg hs
    simpa using List.of_mem_filter hs
  have hfree : ∀ seg ∈ pyPosixSegs s, '/' ∉ seg := fun seg hs =>
    mem_splitSlash_no_slash s seg (List.mem_of_mem_filter hs)
  rcases hsegs : pyPosixSegs s with _ | ⟨s0, rest⟩
  · have hb : joinSlash (pyPosixSegs s) = [] := by rw [hsegs]; rfl
    rcases pyPosixRoot_cases s with h | h | h
    · have hps : pyPosix s = pyOf "." := by unfold pyPosix; rw [if_pos ⟨h, hb⟩]
      rw [hps]; decide
    · have hps : pyPosix s = pyOf "/" := by
        unfold pyPosix
        rw [if_neg (by rw [h]; rintro ⟨h1, -⟩; cases h1), h, hb]
        simp
      rw [hps]; decide
    · have hps : pyPosix s = pyOf "//" := by
        unfold pyPosix
        rw [if_neg (by rw [h]; rintro ⟨h1, -⟩; cases h1), h, hb]
        simp
      rw [hps]; decide
  · have hs0 : s0 ≠ [] := (hP s0 (by rw [hsegs]; exact List.mem_cons_self _ _)).1
    have hbody : joinSlash (pyPosixSegs s) ≠ [] := by
      rw [hsegs]; exact joinSlash_ne_nil s0 rest hs0
    have hout : pyPosix s = pyPosixRoot s ++ joinSlash (pyPosixSegs s) := by
      unfold pyPosix
      rw [if_neg (by rintro ⟨-, h2⟩; exact hbody h2)]
    have hhead : ∀ c, (joinSlash (pyPosixSegs s)).head? = some c → c ≠ '/' := by
      intro c hc
      rw [hsegs] at hc
      obtain ⟨c0, hc0, hmem⟩ := joinSlash_head s0 rest hs0
      rw [hc0] at hc
      injection hc with hcc
      subst hcc
      exact fun hcs => hfree s0 (by rw [hsegs]; exact List.mem_cons_self _ _) (hcs ▸ hmem)
    have hroot' := pyPosixRoot_append (pyPosixRoot s) (joinSlash (pyPosixSegs s))
      (pyPosixRoot_cases s) hhead
    have hsegs' := pyPosixSegs_append (pyPosixRoot s) (pyPosixSegs s)
      (pyPosixRoot_cases s) (by rw [hsegs]; simp) hfree hP
    rw [hout]
    unfold pyPosix
    rw [hroot', hsegs']
    rw [if_neg (by rintro ⟨-, h2⟩; exact hbody h2)]

/-- `pyPosix` never returns the empty text. -/
theorem pyPosix_ne_nil (s : PyText) : pyPosix s ≠ [] := by
  unfold pyPosix
  split
  · simp [pyOf]
  · next h =>
      intro hcontra
      rcases List.append_eq_nil.mp hcontra with ⟨h1, h2⟩
      exact h ⟨h1, h2⟩

namespace Core

open Schema

/-!
### Properties of the orphan rename
-/


theorem pySuffix_drop (name : PyText) (h : pySuffix name ≠ []) :
    ∃ i, pySuffix name = name.drop i ∧ 0 < i ∧ i ≤ name.length := by
  rcases hm : ((List.range name.length).filter
      (fun i => name.get? i = some '.')).getLast? with _ | i
  · exfalso
    apply h
    unfold pySuffix
    rw [hm]
  · have hps : pySuffix name =
        if 0 < i ∧ i < name.length - 1 then name.drop i else [] := by
      unfold pySuffix
      rw [hm]
    by_cases hc : 0 < i ∧ i < name.length - 1
    · exact ⟨i, by rw [hps, if_pos hc], hc.1, by omega⟩
    · exfalso
      apply h
      rw [hps, if_neg hc]

theorem orphanedName_eq (name : PyText) :
    orphanedName name = name ++ pyOf ".orphaned" := by
  unfold orphanedName withSuffixName
  by_cases h : pySuffix name = []
  · rw [if_neg (by simp [h]), h]
    simp
  · rw [if_pos h]
    obtain ⟨i, hi, hpos, hle⟩ := pySuffix_drop name h
    rw [hi]
    have hlen : (name.drop i).length = name.length - i := List.length_drop _ _
    rw [hlen]
    have harith : name.length - (name.length - i) = i := by omega
    rw [harith]
    rw [← List.append_assoc, List.take_append_drop]

theorem splitDirName_spec (p : PyText) :
    (splitDirName p).1 ++ (splitDirName p).2 = p := by
  unfold splitDirName
  simp only
  set B := p.reverse.takeWhile (· ≠ '/') with hB
  set A := p.reverse.dropWhile (· ≠ '/') with hA
  have hsplit : B ++ A = p.reverse := by
    rw [hB, hA]
    exact List.takeWhile_append_dropWhile _ _
  have hp : p = A.reverse ++ B.reverse := by
    have h2 := congrArg List.reverse hsplit
    rw [List.reverse_append, List.reverse_reverse] at h2
    exact h2.symm
  have hlen : p.length = A.length + B.length := by
    have h2 := congrArg List.length hsplit
    simp only [List.length_append, List.length_reverse] at h2
    omega
  rw [hp]
  have hn : (A.reverse ++ B.reverse).length - B.length = A.reverse.length := by
    simp only [List.length_append, List.length_reverse]
    omega
  rw [hn, List.take_left]

theorem orphanedPath_eq (p : PyText) :
    orphanedPath p = p ++ pyOf ".orphaned" := by
  unfold orphanedPath
  rw [orphanedName_eq, ← List.append_assoc, splitDirName_spec]

theorem orphanedPath_ne (p : PyText) : orphanedPath p ≠ p := by
  rw [orphanedPath_eq]
  intro h
  have := congrArg List.length h
  simp [pyOf] at this

/-!
### Plan-builder invariants
-/



theorem foldl_inv {β σ : Type} (P : σ → Prop) (f : σ → β → σ)
    (hstep : ∀ st x, P st → P (f st x)) :
    ∀ (l : List β) (st : σ), P st → P (l.foldl f st) := by
  intro l
  induction l with
  | nil => intro st h; exact h
  | cons x xs ih => intro st h; exact ih (f st x) (hstep st x h)

/-- Monotonicity of one first-loop step: `processed`, `changes` and the
conflict counter only grow, and `processed` grows by at most the current
file. -/
theorem loop1Step_mono (rF : List PyText) (mg : List ManagedPath) (ig : List PyText)
    (st : PlanState) (f : PyText) :
    (∀ q ∈ st.processed, q ∈ (loop1Step rF mg ig st f).processed) ∧
    (∀ c ∈ st.changes, c ∈ (loop1Step rF mg ig st f).changes) ∧
    st.conflicts ≤ (loop1Step rF mg ig st f).conflicts ∧
    (∀ q ∈ (loop1Step rF mg ig st f).processed, q ∈ st.processed ∨ q = f) := by
  unfold loop1Step
  by_cases hig : isIgnored f ig = true
  · rw [if_pos hig]
    exact ⟨fun q h => h, fun c h => h, le_refl _, fun q h => Or.inl h⟩
  · rw [if_neg hig]
    split
    · exact ⟨fun q h => h, fun c h => h, le_refl _, fun q h => Or.inl h⟩
    · by_cases hpr : f ∈ st.processed
      · rw [if_pos hpr]
        exact ⟨fun q h => h, fun c h => h, le_refl _, fun q h => Or.inl h⟩
      · rw [if_neg hpr]
        refine ⟨?_, ?_, ?_, ?_⟩
        · intro q h
          simp only [List.mem_append]
          exact Or.inl h
        · intro c h
          simp only [List.mem_append]
          exact Or.inl h
        · dsimp only
          split <;> omega
        · intro q h
          simp only [List.mem_append, List.mem_singleton] at h
          exact h

/-- Monotonicity of one second-loop step. -/
theorem loop2Step_mono (tF rF : List PyText) (ig : List PyText)
    (mp : ManagedPath) (st : PlanState) (f : PyText) :
    (∀ q ∈ st.processed, q ∈ (loop2Step tF rF ig mp st f).processed) ∧
    (∀ c ∈ st.changes, c ∈ (loop2Step tF rF ig mp st f).changes) ∧
    st.conflicts ≤ (loop2Step tF rF ig mp st f).conflicts ∧
    (∀ q ∈ (loop2Step tF rF ig mp st f).processed, q ∈ st.processed ∨ q = f) := by
  unfold loop2Step
  by_cases htf : f ∈ tF
  · rw [if_pos htf]
    exact ⟨fun q h => h, fun c h => h, le_refl _, fun q h => Or.inl h⟩
  · rw [if_neg htf]
    by_cases hig : isIgnored f ig = true
    · rw [if_pos hig]
      exact ⟨fun q h => h, fun c h => h, le_refl _, fun q h => Or.inl h⟩
    · rw [if_neg hig]
      by_cases hpr : f ∈ st.processed
      · rw [if_pos hpr]
        exact ⟨fun q h => h, fun c h => h, le_refl _, fun q h => Or.inl h⟩
      · rw [if_neg hpr]
        by_cases hrf : f ∈ rF
        · rw [if_pos hrf]
          refine ⟨?_, ?_, ?_, ?_⟩
          · intro q h
            simp only [List.mem_append]
            exact Or.inl h
          · intro c h
            simp only [List.mem_append]
            exact Or.inl h
          · dsimp only
            split <;> omega
          · intro q h
            simp only [List.mem_append, List.mem_singleton] at h
            exact h
        · rw [if_neg hrf]
          refine ⟨?_, ?_, ?_, ?_⟩
          · intro q h
            simp only [List.mem_append]
            exact Or.inl h
          · intro c h
            exact h
          · exact le_refl _
          · intro q h
            simp only [List.mem_append, List.mem_singleton] at h
            exact h

/-- A first-loop step either leaves `changes` unchanged or appends a single
change for a non-ignored current file. -/
theorem loop1Step_changes (rF : List PyText) (mg : List ManagedPath) (ig : List PyText)
    (st : PlanState) (f : PyText) :
    (loop1Step rF mg ig st f).changes = st.changes ∨
    (isIgnored f ig = false ∧ ∃ c : Change, c.file = f ∧
      (loop1Step rF mg ig st f).changes = st.changes ++ [c]) := by
  unfold loop1Step
  by_cases hig : isIgnored f ig = true
  · rw [if_pos hig]
    exact Or.inl rfl
  · rw [if_neg hig]
    split
    · exact Or.inl rfl
    · by_cases hpr : f ∈ st.processed
      · rw [if_pos hpr]
        exact Or.inl rfl
      · rw [if_neg hpr]
        exact Or.inr ⟨by simpa using hig, ⟨_, rfl, rfl⟩⟩

/-- A second-loop step either leaves `changes` unchanged or appends a single
change for a non-ignored current file. -/
theorem loop2Step_changes (tF rF : List PyText) (ig : List PyText)
    (mp : ManagedPath) (st : PlanState) (f : PyText) :
    (loop2Step tF rF ig mp st f).changes = st.changes ∨
    (isIgnored f ig = false ∧ ∃ c : Change, c.file = f ∧
      (loop2Step tF rF ig mp st f).changes = st.changes ++ [c]) := by
  unfold loop2Step
  by_cases htf : f ∈ tF
  · rw [if_pos htf]
    exact Or.inl rfl
  · rw [if_neg htf]
    by_cases hig : isIgnored f ig = true
    · rw [if_pos hig]
      exact Or.inl rfl
    · rw [if_neg hig]
      by_cases hpr : f ∈ st.processed
      · rw [if_pos hpr]
        exact Or.inl rfl
      · rw [if_neg hpr]
        by_cases hrf : f ∈ rF
        · rw [if_pos hrf]
          exact Or.inr ⟨by simpa using hig, ⟨_, rfl, rfl⟩⟩
        · rw [if_neg hrf]
          exact Or.inl rfl

end Core

/-!
### Generic machinery for the claim proofs
-/

theorem splitKeep_ne_nil (x : PyText) (h : x ≠ []) : splitKeep x ≠ [] := by
  intro hnil
  apply h
  have := splitKeep_flatten x
  rw [hnil] at this
  exact this.symm

theorem foldl_inv_mem {β σ : Type} (P : σ → Prop) (f : σ → β → σ) :
    ∀ (l : List β), (∀ st x, x ∈ l → P st → P (f st x)) →
      ∀ st, P st → P (l.foldl f st) := by
  intro l
  induction l with
  | nil => intro _ st h; exact h
  | cons x xs ih =>
      intro hstep st h
      exact ih (fun st' y hy => hstep st' y (List.mem_cons_of_mem x hy))
        (f st x) (hstep st x (List.mem_cons_self x xs) h)

theorem exists_first_split {β : Type} [DecidableEq β] (p : β) :
    ∀ l : List β, p ∈ l → ∃ pre post, l = pre ++ p :: post ∧ p ∉ pre := by
  intro l
  induction l with
  | nil => intro h; cases h
  | cons x xs ih =>
      intro h
      by_cases hx : x = p
      · exact ⟨[], xs, by rw [hx]; rfl, by simp⟩
      · have hmem : p ∈ xs := by
          rcases List.mem_cons.mp h with h1 | h2
          · exact absurd h1.symm hx
          · exact h2
        rcases ih hmem with ⟨pre, post, heq, hnp⟩
        refine ⟨x :: pre, post, by rw [heq]; rfl, ?_⟩
        intro hc
        rcases List.mem_cons.mp hc with h1 | h2
        · exact hx h1.symm
        · exact hnp h2

/-- A string with the directory-glob tail contains a star. -/
theorem star_mem_of_dirGlob (s : PyText) (h : (pyOf "/**").isSuffixOf s = true) :
    ('*' : Char) ∈ s := by
  have h' : pyOf "/**" <:+ s := List.isSuffixOf_iff_suffix.mp h
  rcases h' with ⟨t, rfl⟩
  have : ('*' : Char) ∈ pyOf "/**" := by decide
  exact List.mem_append_right t this

theorem take_dirGlob_body (d : PyText) :
    (d ++ pyOf "/**").take ((d ++ pyOf "/**").length - 3) = d := by
  have hlen : (d ++ pyOf "/**").length - 3 = d.length := by
    rw [List.length_append]
    rfl
  rw [hlen, List.take_left]

namespace Blockprotect

theorem mem_of_hasSub (pat s : PyText) (h : hasSub pat s = true) :
    ∀ c ∈ pat, c ∈ s := by
  induction s with
  | nil =>
      intro c hc
      unfold hasSub dropAfterSub at h
      by_cases hp : pat = []
      · rw [hp] at hc; cases hc
      · rw [if_neg hp] at h; cases h
  | cons a rest ih =>
      intro c hc
      unfold hasSub dropAfterSub at h
      by_cases hp : pat.isPrefixOf (a :: rest) = true
      · have hpre : pat <+: a :: rest := by
          have := List.isPrefixOf_iff_prefix.mp hp
          exact this
        exact hpre.subset hc
      · rw [if_neg (by simpa using hp)] at h
        exact List.mem_cons_of_mem a (ih h c hc)

end Blockprotect

namespace Core

open Schema

theorem spec_snd (r : ManagedPath) : (ruleSpecificity r).2 = r.path.length := by
  unfold ruleSpecificity
  split_ifs <;> rfl

theorem spec_fst_zero (r : ManagedPath) (h : ('*' : Char) ∉ r.path) :
    (ruleSpecificity r).1 = 0 := by
  unfold ruleSpecificity
  rw [if_neg, if_neg]
  · simpa using h
  · intro hsub
    exact h (Blockprotect.mem_of_hasSub _ _ hsub '*' (by decide))

theorem spec_fst_pos (r : ManagedPath) (h : ('*' : Char) ∈ r.path) :
    1 ≤ (ruleSpecificity r).1 := by
  unfold ruleSpecificity
  split_ifs <;> simp

theorem matchesPattern_self_of_no_star (p : PyText) (h : ('*' : Char) ∉ p) :
    matchesPattern p p = true := by
  unfold matchesPattern
  rw [if_neg, if_neg]
  · simp
  · simpa using h
  · intro hsuf
    exact h (star_mem_of_dirGlob p hsuf)

theorem matchesPattern_literal (path pattern : PyText) (h : ('*' : Char) ∉ pattern) :
    matchesPattern path pattern = decide (path = pattern) := by
  unfold matchesPattern
  rw [if_neg, if_neg]
  · simpa using h
  · intro hsuf
    exact h (star_mem_of_dirGlob pattern hsuf)

theorem matchesPattern_dirGlob (path d : PyText) :
    matchesPattern path (d ++ pyOf "/**") =
      ((d ++ pyOf "/").isPrefixOf path || decide (path = d)) := by
  unfold matchesPattern
  rw [if_pos, take_dirGlob_body]
  exact List.isSuffixOf_iff_suffix.mpr (List.suffix_append d (pyOf "/**"))

theorem find_two (p : PyText) (r1 r2 : ManagedPath)
    (h1 : matchesPattern p r1.path = true) (h2 : matchesPattern p r2.path = true) :
    findBestMatchingRule p [r1, r2] = some (if specBefore r2 r1 then r2 else r1) := by
  unfold findBestMatchingRule
  rw [List.filter_cons, if_pos h1, List.filter_cons, if_pos h2]
  rfl

theorem loop1Step_at_merge (rF : List PyText) (mg : List ManagedPath)
    (ig : List PyText) (st : PlanState) (p : PyText) (r : ManagedPath)
    (hig : isIgnored p ig = false) (hbr : findBestMatchingRule p mg = some r)
    (hpr : p ∉ st.processed) (hm : r.strategy = .merge) (hrepo : p ∈ rF) :
    loop1Step rF mg ig st p =
      ⟨st.processed ++ [p], st.changes ++ [⟨p, .merge, .conflict, r.path⟩],
        st.conflicts + 1⟩ := by
  simp [loop1Step, hig, hbr, hpr, hm, hrepo]

theorem loop2Step_at_orphan (tF rF : List PyText) (ig : List PyText)
    (mp : ManagedPath) (st : PlanState) (p : PyText)
    (htf : p ∉ tF) (hig : isIgnored p ig = false) (hpr : p ∉ st.processed)
    (hrepo : p ∈ rF) (hm : mp.strategy = .merge) :
    loop2Step tF rF ig mp st p =
      ⟨st.processed ++ [p], st.changes ++ [⟨p, .merge, .orphan, mp.path⟩],
        st.conflicts + 1⟩ := by
  simp [loop2Step, htf, hig, hpr, hrepo, hm, fileWasModifiedLocally]

end Core

namespace FsUtils

open Schema

theorem bestRule_two (p : PyText) (r1 r2 : ManagedPath)
    (h1 : matchPat p r1.path = true) (h2 : matchPat p r2.path = true) :
    bestRule p [r1, r2] = some (if keyBefore p r2 r1 then r2 else r1) := by
  unfold bestRule
  rw [List.filter_cons, if_pos h1, List.filter_cons, if_pos h2]
  rfl

theorem globMatchF_literal :
    ∀ (n : Nat) (p : PyText), ('*' : Char) ∉ p → ('?' : Char) ∉ p →
      ('[' : Char) ∉ p → ∀ s : PyText, p.length + s.length < n →
      globMatchF n p s = decide (s = p) := by
  intro n
  induction n with
  | zero =>
      intro p _ _ _ s hlt
      cases hlt
  | succ n ih =>
      intro p hstar hq hb s hlt
      cases p with
      | nil =>
          cases s <;> simp [globMatchF]
      | cons c ps =>
          have hc1 : ¬(c = '*') := fun h => hstar (h ▸ List.mem_cons_self c ps)
          have hc2 : ¬(c = '?') := fun h => hq (h ▸ List.mem_cons_self c ps)
          have hc3 : ¬(c = '[') := fun h => hb (h ▸ List.mem_cons_self c ps)
          have ih' := ih ps (fun h => hstar (List.mem_cons_of_mem c h))
            (fun h => hq (List.mem_cons_of_mem c h))
            (fun h => hb (List.mem_cons_of_mem c h))
          cases s with
          | nil => simp [globMatchF, hc1, hc2, hc3]
          | cons a t =>
              rw [show globMatchF (n + 1) (c :: ps) (a :: t) =
                  (decide (c = a) && globMatchF n ps t) from by
                simp [globMatchF, hc1, hc2, hc3]]
              rw [ih' t (by simp at hlt ⊢; omega)]
              by_cases hca : c = a
              · subst hca
                by_cases hts : t = ps
                · subst hts; simp
                · simp [hts]
              · have hac : ¬(a = c) := fun h => hca h.symm
                simp [hca, hac]

theorem globMatch_literal (p : PyText) (hstar : ('*' : Char) ∉ p)
    (hq : ('?' : Char) ∉ p) (hb : ('[' : Char) ∉ p) :
    ∀ s, globMatch p s = decide (s = p) := by
  intro s
  exact globMatchF_literal (p.length + s.length + 1) p hstar hq hb s (by omega)

end FsUtils

theorem mapM_ok_mem {α β : Type} (f : α → Except PyText β) :
    ∀ (l : List α) (out : List β), l.mapM f = .ok out →
      ∀ b ∈ out, ∃ a ∈ l, f a = .ok b := by
  intro l
  induction l with
  | nil =>
      intro out h b hb
      rw [List.mapM_nil] at h
      have hout : out = [] := by
        have := h.symm
        simp [pure, Except.pure] at this
        exact this
      rw [hout] at hb
      cases hb
  | cons a l ih =>
      intro out h b hb
      rw [List.mapM_cons] at h
      cases hfa : f a with
      | error e => rw [hfa] at h; simp [Bind.bind, Except.bind] at h
      | ok y =>
          rw [hfa] at h
          cases hml : l.mapM f with
          | error e => rw [hml] at h; simp [Bind.bind, Except.bind] at h
          | ok ys =>
              rw [hml] at h
              simp only [Bind.bind, Except.bind, pure, Except.pure, Except.ok.injEq] at h
              rw [← h] at hb
              rcases List.mem_cons.mp hb with h1 | h2
              · exact ⟨a, List.mem_cons_self a l, by rw [hfa, h1]⟩
              · rcases ih ys hml b h2 with ⟨a', ha', hfa'⟩
                exact ⟨a', List.mem_cons_of_mem a ha', hfa'⟩

namespace Schema

theorem normPath_ok (v q : PyText) (h : normPath v = .ok q) :
    q = pyPosix (pyStrip v) := by
  unfold normPath at h
  by_cases hc : v = [] ∨ pyStrip v = []
  · rw [if_pos hc] at h; cases h
  · rw [if_neg hc] at h
    cases h
    rfl

theorem dedupeManaged_eq (rs : List ManagedPath) :
    dedupeManaged rs = rs.foldl dedupeStep [] := rfl

theorem dedupe_go_pairwise : ∀ (rs acc : List ManagedPath),
    acc.Pairwise (fun a b => a.path ≠ b.path) →
    (rs.foldl dedupeStep acc).Pairwise (fun a b => a.path ≠ b.path) := by
  intro rs
  induction rs with
  | nil => intro acc h; exact h
  | cons r rs ih =>
      intro acc h
      rw [List.foldl_cons]
      apply ih
      unfold dedupeStep
      by_cases hany : acc.any (fun d => d.path = r.path) = true
      · rw [if_pos hany]; exact h
      · rw [if_neg hany]
        rw [List.pairwise_append]
        refine ⟨h, by simp, ?_⟩
        intro a ha b hb
        have hb' : b = r := by simpa using hb
        subst hb'
        have hany' : acc.any (fun d => d.path = b.path) = false := by
          simpa using hany
        have hall := List.any_eq_false.mp hany'
        intro hee
        exact (hall a ha) (by simpa using hee)

theorem dedupe_go_mem : ∀ (rs acc : List ManagedPath) (x : ManagedPath),
    x ∈ rs.foldl dedupeStep acc → x ∈ acc ∨ x ∈ rs := by
  intro rs
  induction rs with
  | nil => intro acc x h; exact Or.inl h
  | cons r rs ih =>
      intro acc x h
      rw [List.foldl_cons] at h
      rcases ih _ x h with h1 | h2
      · unfold dedupeStep at h1
        by_cases hany : acc.any (fun d => d.path = r.path) = true
        · rw [if_pos hany] at h1; exact Or.inl h1
        · rw [if_neg hany] at h1
          rcases List.mem_append.mp h1 with h3 | h4
          · exact Or.inl h3
          · have hx : x = r := by simpa using h4
            exact Or.inr (hx ▸ List.mem_cons_self r rs)
      · exact Or.inr (List.mem_cons_of_mem r h2)

theorem dedupe_go_first : ∀ (rs acc : List ManagedPath) (x : ManagedPath),
    x ∈ rs.foldl dedupeStep acc →
    x ∈ acc ∨ ((∀ a ∈ acc, a.path ≠ x.path) ∧
      (rs.filter (fun y => y.path = x.path)).head? = some x) := by
  intro rs
  induction rs with
  | nil => intro acc x h; exact Or.inl h
  | cons r rs ih =>
      intro acc x h
      rw [List.foldl_cons] at h
      rcases ih _ x h with h1 | ⟨hnacc', hfirst⟩
      · unfold dedupeStep at h1
        by_cases hany : acc.any (fun d => d.path = r.path) = true
        · rw [if_pos hany] at h1; exact Or.inl h1
        · rw [if_neg hany] at h1
          rcases List.mem_append.mp h1 with h3 | h4
          · exact Or.inl h3
          · have hx : x = r := by simpa using h4
            subst hx
            refine Or.inr ⟨?_, ?_⟩
            · intro a ha
              have hany' : acc.any (fun d => d.path = x.path) = false := by
                simpa using hany
              have hall := List.any_eq_false.mp hany'
              intro hee
              exact (hall a ha) (by simpa using hee)
            · rw [List.filter_cons, if_pos (by simp)]
              rfl
      · have hnacc : ∀ a ∈ acc, a.path ≠ x.path := by
          intro a ha
          apply hnacc' a
          unfold dedupeStep
          split
          · exact ha
          · exact List.mem_append_left _ ha
        refine Or.inr ⟨hnacc, ?_⟩
        have hrx : r.path ≠ x.path := by
          unfold dedupeStep at hnacc'
          by_cases hany : acc.any (fun d => d.path = r.path) = true
          · rw [if_pos hany] at hnacc'
            rcases List.any_eq_true.mp hany with ⟨a, ha, hpa⟩
            have hpa' : a.path = r.path := by simpa using hpa
            rw [← hpa']
            exact hnacc' a ha
          · rw [if_neg hany] at hnacc'
            exact hnacc' r (List.mem_append_right _ (List.mem_singleton_self r))
        rw [List.filter_cons, if_neg (by simpa using hrx)]
        exact hfirst

theorem dedupe_go_complete : ∀ (rs acc : List ManagedPath) (y : ManagedPath),
    (y ∈ acc ∨ y ∈ rs) → ∃ x ∈ rs.foldl dedupeStep acc, x.path = y.path := by
  intro rs
  induction rs with
  | nil =>
      intro acc y h
      rcases h with h | h
      · exact ⟨y, h, rfl⟩
      · cases h
  | cons r rs ih =>
      intro acc y h
      rw [List.foldl_cons]
      rcases h with h | h
      · apply ih
        left
        unfold dedupeStep
        split
        · exact h
        · exact List.mem_append_left _ h
      · rcases List.mem_cons.mp h with h1 | h2
        · subst h1
          unfold dedupeStep
          by_cases hany : acc.any (fun d => d.path = y.path) = true
          · rw [if_pos hany]
            rcases List.any_eq_true.mp hany with ⟨a, ha, hpa⟩
            have hpa' : a.path = y.path := by simpa using hpa
            rcases ih acc a (Or.inl ha) with ⟨x, hx, hxa⟩
            exact ⟨x, hx, by rw [hxa, hpa']⟩
          · rw [if_neg hany]
            apply ih
            left
            exact List.mem_append_right _ (List.mem_singleton_self y)
        · exact ih _ y (Or.inr h2)

theorem syncVersion_managedPaths (l : RetemplarLock) :
    (syncVersion l).managedPaths = l.managedPaths := by
  unfold syncVersion
  simp only []
  split <;> rfl

theorem seedApplied_managedPaths (l : RetemplarLock) :
    (seedApplied l).managedPaths = l.managedPaths := rfl

theorem mkLock_ok (template : TemplateSource) (version : Option PyText)
    (managedRaw : List (PyText × Strategy)) (ignoreRaw : List PyText)
    (appliedRef appliedCommit : Option PyText) (lock : RetemplarLock)
    (h : mkLock template version managedRaw ignoreRaw appliedRef appliedCommit = .ok lock) :
    ∃ rs : List ManagedPath,
      managedRaw.mapM (fun pr => do
        let p ← normPath pr.1
        pure (⟨p, pr.2⟩ : ManagedPath)) = .ok rs ∧
      lock.managedPaths = dedupeManaged rs := by
  unfold mkLock at h
  cases hm : managedRaw.mapM (fun pr => do
      let p ← normPath pr.1
      pure (⟨p, pr.2⟩ : ManagedPath)) with
  | error e =>
      rw [hm] at h
      simp [Bind.bind, Except.bind] at h
  | ok rs =>
      rw [hm] at h
      simp only [Bind.bind, Except.bind, pure, Except.pure, Except.ok.injEq] at h
      refine ⟨rs, rfl, ?_⟩
      rw [← h, seedApplied_managedPaths, syncVersion_managedPaths]

end Schema

/-- C1: amended TextMerger no-op law.  The plan-level entry point
`merge_with_conflicts(x, x)` returns `x` unchanged for every text `x`; the
apply-level `_three_way_merge` runs against the MVP's empty baseline and is a
conflict-free no-op only for the empty text — for any nonempty `x` it reports
a conflict (base differs from both sides, so the whole file is wrapped in
conflict markers). -/
theorem C1_merge_noop (x : PyText) :
    MergeUtils.mergeWithConflicts x x = x ∧
    (x = [] → Core.threeWayMerge Core.getBaselineContent x x = (x, false)) ∧
    (x ≠ [] → (Core.threeWayMerge Core.getBaselineContent x x).2 = true) := by
  refine ⟨MergeUtils.mergeWithConflicts_self x, ?_, ?_⟩
  · intro h
    subst h
    rfl
  · intro h
    have h1 : splitKeep ([] : PyText) = [] := rfl
    have h2 : ¬(([] : List PyText) = splitKeep x) :=
      fun hx => splitKeep_ne_nil x h hx.symm
    simp [Core.threeWayMerge, Core.getBaselineContent, h1, h2,
      Core.coreMergeWithConflicts]

/-- C1 counterexample: with the empty baseline, three-way merging the
identical nonempty text `"a\n"` with itself reports a conflict and returns a
marker-wrapped text, not the input. -/
theorem C1_counterexample :
    (Core.threeWayMerge Core.getBaselineContent (pyOf "a\n") (pyOf "a\n")).2 = true ∧
    (Core.threeWayMerge Core.getBaselineContent (pyOf "a\n") (pyOf "a\n")).1 ≠ pyOf "a\n" := by
  decide

/-- C2: amended trailing-newline law.  For every `ours` and every *nonempty*
`theirs`, the merged output ends with a newline exactly when `theirs` does;
the final normalization pass is skipped for an empty template, so the law
does not extend to `theirs = ""`. -/
theorem C2_trailing_newline (ours theirs : PyText) (h : theirs ≠ []) :
    endsNl (MergeUtils.mergeWithConflicts ours theirs) = endsNl theirs :=
  MergeUtils.mergeWithConflicts_trailing ours theirs h

theorem C2_witness :
    pyOf "b\n" ≠ ([] : PyText) ∧
    endsNl (MergeUtils.mergeWithConflicts (pyOf "a") (pyOf "b\n")) = endsNl (pyOf "b\n") :=
  ⟨by decide, C2_trailing_newline (pyOf "a") (pyOf "b\n") (by decide)⟩

/-- C2 counterexample: merging `"a"` with the empty template yields a
conflict block that ends with a newline, while the empty `theirs` does not
end with one. -/
theorem C2_counterexample :
    endsNl (MergeUtils.mergeWithConflicts (pyOf "a") []) = true ∧
    endsNl ([] : PyText) = false := by
  decide

/-- C7: amended lock-record advancement.  After a successful apply targeting
`target`, only `applied_ref` and `applied_commit` are advanced (via
`model_copy`, which bypasses the validators); the template source and the
`version` field are left unchanged, contrary to the spec's re-derivation. -/
theorem C7_lock_advancement (lock : Schema.RetemplarLock)
    (target : Schema.TemplateSource) :
    (Core.applyLockUpdate lock target).appliedRef = some target.ref ∧
    (Core.applyLockUpdate lock target).appliedCommit = target.commit ∧
    (Core.applyLockUpdate lock target).template = lock.template ∧
    (Core.applyLockUpdate lock target).version = lock.version ∧
    (Core.applyLockUpdate lock target).managedPaths = lock.managedPaths ∧
    (Core.applyLockUpdate lock target).ignorePaths = lock.ignorePaths :=
  ⟨rfl, rfl, rfl, rfl, rfl, rfl⟩

/-- C7 counterexample: applying toward `v2` leaves the template ref at `v1`
and the version at `rat@v1`; only the applied ref moves to `v2`. -/
theorem C7_counterexample :
    (Core.applyLockUpdate
        ⟨⟨pyOf "rat", pyOf "gh:acme/main-svc", pyOf "v1", none⟩,
          some (pyOf "rat@v1"), [], [], some (pyOf "v1"), none⟩
        ⟨pyOf "rat", pyOf "gh:acme/main-svc", pyOf "v2", some (pyOf "abc123")⟩).template.ref ≠
      pyOf "v2" ∧
    (Core.applyLockUpdate
        ⟨⟨pyOf "rat", pyOf "gh:acme/main-svc", pyOf "v1", none⟩,
          some (pyOf "rat@v1"), [], [], some (pyOf "v1"), none⟩
        ⟨pyOf "rat", pyOf "gh:acme/main-svc", pyOf "v2", some (pyOf "abc123")⟩).version ≠
      some (pyOf "rat@v2") ∧
    (Core.applyLockUpdate
        ⟨⟨pyOf "rat", pyOf "gh:acme/main-svc", pyOf "v1", none⟩,
          some (pyOf "rat@v1"), [], [], some (pyOf "v1"), none⟩
        ⟨pyOf "rat", pyOf "gh:acme/main-svc", pyOf "v2", some (pyOf "abc123")⟩).appliedRef =
      some (pyOf "v2") := by
  decide

/-- C8: atomic lock persistence.  `LockfileManager.write` always ends with no
temporary file on disk; on success the lock path holds exactly the serialized
record; on any failure before the rename (validation, serialization, or the
temporary write itself) the previously persisted lock record is unchanged. -/
theorem C8_atomic_lock_write (fs : Core.Fs) (validateOk serializeOk writeTempOk : Bool)
    (serialized broken : PyText) :
    (Lockfile.write fs validateOk serializeOk writeTempOk serialized broken).fs
        Lockfile.tempName = none ∧
    ((Lockfile.write fs validateOk serializeOk writeTempOk serialized broken).ok = true →
      (Lockfile.write fs validateOk serializeOk writeTempOk serialized broken).fs
          Lockfile.lockfileName = some serialized) ∧
    ((Lockfile.write fs validateOk serializeOk writeTempOk serialized broken).ok = false →
      (Lockfile.write fs validateOk serializeOk writeTempOk serialized broken).fs
          Lockfile.lockfileName = fs Lockfile.lockfileName) ∧
    (Lockfile.write fs validateOk serializeOk writeTempOk serialized broken).ok =
      (validateOk && serializeOk && writeTempOk) := by
  have h1 : ¬(Lockfile.lockfileName = Lockfile.tempName) := by decide
  have h2 : ¬(Lockfile.tempName = Lockfile.lockfileName) := by decide
  cases validateOk <;> cases serializeOk <;> cases writeTempOk <;>
    simp [Lockfile.write, Core.fsSet, h1, h2]

/-- C9: amended path-matching semantics.  `fs_utils.match` is sound for the
spec's three-way disjunction, and coincides with it on wildcard-free patterns
(where matching is exact equality of the normalized paths); `core`'s
`_matches_pattern` compares literally for any pattern without `*` and handles
a trailing `/**` as directory-prefix-or-below — the spec's unconditional
glob-wildcard disjunct holds for neither matcher (see the counterexample). -/
theorem C9_matching_semantics (path pattern d : PyText) :
    (FsUtils.matchPat path pattern = true → specMatch path pattern = true) ∧
    ((('*' : Char) ∉ pyPosix pattern ∧ ('?' : Char) ∉ pyPosix pattern ∧
        ('[' : Char) ∉ pyPosix pattern) →
      (FsUtils.matchPat path pattern = true ↔ pyPosix path = pyPosix pattern)) ∧
    (('*' : Char) ∉ pattern →
      Core.matchesPattern path pattern = decide (path = pattern)) ∧
    Core.matchesPattern path (d ++ pyOf "/**") =
      ((d ++ pyOf "/").isPrefixOf path || decide (path = d)) := by
  refine ⟨?_, ?_, ?_, Core.matchesPattern_dirGlob path d⟩
  · intro h
    by_cases hsuf : (pyOf "/**").isSuffixOf (pyPosix pattern) = true
    · simp only [FsUtils.matchPat, hsuf, if_true] at h
      simp [specMatch, hsuf, h]
    · simp only [FsUtils.matchPat, hsuf, Bool.false_eq_true, if_false] at h
      simp [specMatch, h]
  · rintro ⟨hs, hq, hb⟩
    have hsuf : (pyOf "/**").isSuffixOf (pyPosix pattern) = false := by
      rcases Bool.eq_false_or_eq_true ((pyOf "/**").isSuffixOf (pyPosix pattern)) with
        hx | hx
      · exact absurd (star_mem_of_dirGlob _ hx) hs
      · exact hx
    constructor
    · intro h
      simp only [FsUtils.matchPat, hsuf, Bool.false_eq_true, if_false] at h
      rw [FsUtils.globMatch_literal _ hs hq hb] at h
      exact of_decide_eq_true h
    · intro h
      simp only [FsUtils.matchPat, hsuf, Bool.false_eq_true, if_false]
      rw [FsUtils.globMatch_literal _ hs hq hb]
      exact decide_eq_true h
  · intro hstar
    exact Core.matchesPattern_literal path pattern hstar

/-- C9 counterexample: `*.md` glob-matches `x.md` under the spec's wording
but `core._matches_pattern` rejects it; `a*/**` glob-matches `ab/c` under the
spec's wording but `fs_utils.match` takes the `/**` branch, which compares
the literal prefix `a*` and rejects it. -/
theorem C9_counterexample :
    specMatch (pyOf "x.md") (pyOf "*.md") = true ∧
    Core.matchesPattern (pyOf "x.md") (pyOf "*.md") = false ∧
    specMatch (pyOf "ab/c") (pyOf "a*/**") = true ∧
    FsUtils.matchPat (pyOf "ab/c") (pyOf "a*/**") = false := by
  decide

/-- C3: amended rule specificity.  For every path: an exact-literal rule
beats a wildcard rule regardless of declaration order; inside one specificity
class the planner's `_find_best_matching_rule` picks the *shorter* pattern
(the sort key is `(class, len)` ascending), not the longer one the spec
states; full ties resolve to the first-declared rule.  The unused
`fs_utils.best_rule` helper does sort longer-first within a class (its key is
`(class, -len)`). -/
theorem C3_rule_specificity (p : PyText) :
    (∀ r1 r2 : Schema.ManagedPath,
      Core.matchesPattern p r1.path = true → ('*' : Char) ∈ r1.path →
      r2.path = p → ('*' : Char) ∉ p →
      Core.findBestMatchingRule p [r1, r2] = some r2 ∧
      Core.findBestMatchingRule p [r2, r1] = some r2) ∧
    (∀ r1 r2 : Schema.ManagedPath,
      Core.matchesPattern p r1.path = true → Core.matchesPattern p r2.path = true →
      (Core.ruleSpecificity r1).1 = (Core.ruleSpecificity r2).1 →
      r2.path.length < r1.path.length →
      Core.findBestMatchingRule p [r1, r2] = some r2 ∧
      Core.findBestMatchingRule p [r2, r1] = some r2) ∧
    (∀ r1 r2 : Schema.ManagedPath,
      Core.matchesPattern p r1.path = true → Core.matchesPattern p r2.path = true →
      (Core.ruleSpecificity r1).1 = (Core.ruleSpecificity r2).1 →
      r1.path.length = r2.path.length →
      Core.findBestMatchingRule p [r1, r2] = some r1) ∧
    (∀ r1 r2 : Schema.ManagedPath,
      FsUtils.matchPat p r1.path = true → FsUtils.matchPat p r2.path = true →
      FsUtils.ruleClass p r1 = FsUtils.ruleClass p r2 →
      (pyPosix r1.path).length < (pyPosix r2.path).length →
      FsUtils.bestRule p [r1, r2] = some r2 ∧
      FsUtils.bestRule p [r2, r1] = some r2) := by
  refine ⟨?_, ?_, ?_, ?_⟩
  · intro r1 r2 h1 hw h2p hnp
    have h2 : Core.matchesPattern p r2.path = true := by
      rw [h2p]
      exact Core.matchesPattern_self_of_no_star p hnp
    have hc2 : (Core.ruleSpecificity r2).1 = 0 :=
      Core.spec_fst_zero r2 (by rw [h2p]; exact hnp)
    have hc1 : 1 ≤ (Core.ruleSpecificity r1).1 := Core.spec_fst_pos r1 hw
    have hb21 : Core.specBefore r2 r1 = true := by
      simp only [Core.specBefore, hc2, Bool.or_eq_true, decide_eq_true_eq,
        Bool.and_eq_true]
      left
      omega
    have hb12 : Core.specBefore r1 r2 = false := by
      have hx : ¬((Core.ruleSpecificity r1).1 < (Core.ruleSpecificity r2).1) := by omega
      have hy : ¬((Core.ruleSpecificity r1).1 = (Core.ruleSpecificity r2).1) := by omega
      simp [Core.specBefore, hx, hy]
    constructor
    · rw [Core.find_two p r1 r2 h1 h2]
      simp [hb21]
    · rw [Core.find_two p r2 r1 h2 h1]
      simp [hb12]
  · intro r1 r2 h1 h2 hcls hlen
    have e1 := Core.spec_snd r1
    have e2 := Core.spec_snd r2
    have hb21 : Core.specBefore r2 r1 = true := by
      simp only [Core.specBefore, Bool.or_eq_true, decide_eq_true_eq,
        Bool.and_eq_true, e1, e2]
      right
      exact ⟨hcls.symm, hlen⟩
    have hb12 : Core.specBefore r1 r2 = false := by
      have hx : ¬((Core.ruleSpecificity r1).1 < (Core.ruleSpecificity r2).1) := by omega
      have hy : ¬(r1.path.length < r2.path.length) := by omega
      simp [Core.specBefore, hx, e1, e2, hy]
    constructor
    · rw [Core.find_two p r1 r2 h1 h2]
      simp [hb21]
    · rw [Core.find_two p r2 r1 h2 h1]
      simp [hb12]
  · intro r1 r2 h1 h2 hcls hlen
    have e1 := Core.spec_snd r1
    have e2 := Core.spec_snd r2
    have hb21 : Core.specBefore r2 r1 = false := by
      have hx : ¬((Core.ruleSpecificity r2).1 < (Core.ruleSpecificity r1).1) := by omega
      have hy : ¬(r2.path.length < r1.path.length) := by omega
      simp [Core.specBefore, hx, e1, e2, hy]
    rw [Core.find_two p r1 r2 h1 h2]
    simp [hb21]
  · intro r1 r2 h1 h2 hcls hlen
    have hb21 : FsUtils.keyBefore p r2 r1 = true := by
      simp only [FsUtils.keyBefore, Bool.or_eq_true, decide_eq_true_eq,
        Bool.and_eq_true]
      right
      exact ⟨hcls.symm, hlen⟩
    have hb12 : FsUtils.keyBefore p r1 r2 = false := by
      have hx : ¬(FsUtils.ruleClass p r1 < FsUtils.ruleClass p r2) := by omega
      have hy : ¬((pyPosix r2.path).length < (pyPosix r1.path).length) := by omega
      simp [FsUtils.keyBefore, hx, hy]
    constructor
    · rw [FsUtils.bestRule_two p r1 r2 h1 h2]
      simp [hb21]
    · rw [FsUtils.bestRule_two p r2 r1 h2 h1]
      simp [hb12]

/-- C3 counterexample: `src/sub/**` (longer) and `src/**` (shorter) are both
directory globs matching `src/sub/x.py`, yet the planner picks the shorter
`src/**` in either declaration order, refuting "longer pattern wins among
ties". -/
theorem C3_counterexample :
    Core.findBestMatchingRule (pyOf "src/sub/x.py")
        [⟨pyOf "src/sub/**", Schema.Strategy.merge⟩,
          ⟨pyOf "src/**", Schema.Strategy.enforce⟩] =
      some ⟨pyOf "src/**", Schema.Strategy.enforce⟩ ∧
    Core.findBestMatchingRule (pyOf "src/sub/x.py")
        [⟨pyOf "src/**", Schema.Strategy.enforce⟩,
          ⟨pyOf "src/sub/**", Schema.Strategy.merge⟩] =
      some ⟨pyOf "src/**", Schema.Strategy.enforce⟩ := by
  decide

/-- C4: ignore precedence.  If `_is_ignored(p, I)` holds, then no change of
the plan built by `plan_upgrade` concerns `p`, whatever managed rules match
it: both planning loops test the ignore list before doing anything else. -/
theorem C4_ignored_never_planned (tF rF : List PyText)
    (mg : List Schema.ManagedPath) (ig : List PyText) (p : PyText)
    (h : Core.isIgnored p ig = true) :
    ∀ c ∈ (Core.planUpgrade tF rF mg ig).changes, c.file ≠ p := by
  have hstep1 : ∀ (st : Core.PlanState) (f : PyText),
      (∀ c ∈ st.changes, c.file ≠ p) →
      ∀ c ∈ (Core.loop1Step rF mg ig st f).changes, c.file ≠ p := by
    intro st f hP c hc
    rcases Core.loop1Step_changes rF mg ig st f with hs | ⟨hni, c0, hcf, happ⟩
    · rw [hs] at hc
      exact hP c hc
    · rw [happ] at hc
      rcases List.mem_append.mp hc with h1 | h2
      · exact hP c h1
      · have hc0 : c = c0 := by simpa using h2
        subst hc0
        rw [hcf]
        intro hfp
        rw [hfp, h] at hni
        cases hni
  have hstep2 : ∀ (mp : Schema.ManagedPath) (st : Core.PlanState) (f : PyText),
      (∀ c ∈ st.changes, c.file ≠ p) →
      ∀ c ∈ (Core.loop2Step tF rF ig mp st f).changes, c.file ≠ p := by
    intro mp st f hP c hc
    rcases Core.loop2Step_changes tF rF ig mp st f with hs | ⟨hni, c0, hcf, happ⟩
    · rw [hs] at hc
      exact hP c hc
    · rw [happ] at hc
      rcases List.mem_append.mp hc with h1 | h2
      · exact hP c h1
      · have hc0 : c = c0 := by simpa using h2
        subst hc0
        rw [hcf]
        intro hfp
        rw [hfp, h] at hni
        cases hni
  have h1 : ∀ c ∈ (tF.foldl (Core.loop1Step rF mg ig)
      (⟨[], [], 0⟩ : Core.PlanState)).changes, c.file ≠ p :=
    Core.foldl_inv (fun st => ∀ c ∈ st.changes, c.file ≠ p) (Core.loop1Step rF mg ig)
      hstep1 tF ⟨[], [], 0⟩ (by intro c hc; cases hc)
  exact Core.foldl_inv (fun st => ∀ c ∈ st.changes, c.file ≠ p)
    (fun st mp => (rF.filter (fun q => Core.matchesPattern q mp.path)).foldl
      (Core.loop2Step tF rF ig mp) st)
    (fun st mp hP => Core.foldl_inv (fun st => ∀ c ∈ st.changes, c.file ≠ p)
      (Core.loop2Step tF rF ig mp) (hstep2 mp) _ st hP)
    mg _ h1

theorem C4_witness :
    Core.isIgnored (pyOf "x.md") [pyOf "x.md"] = true ∧
    ∀ c ∈ (Core.planUpgrade [pyOf "x.md"] [pyOf "x.md"]
        [⟨pyOf "x.md", Schema.Strategy.enforce⟩] [pyOf "x.md"]).changes,
      c.file ≠ pyOf "x.md" :=
  ⟨by decide,
    C4_ignored_never_planned [pyOf "x.md"] [pyOf "x.md"]
      [⟨pyOf "x.md", Schema.Strategy.enforce⟩] [pyOf "x.md"] (pyOf "x.md")
      (by decide)⟩

/-- C5: amended classification of a both-present merge file.  When the best
matching rule for a file present in both trees is a merge rule (and the file
is not ignored), the plan records a `conflict` change and bumps the conflict
counter unconditionally: `plan_upgrade` never reads file contents, so there
is no template rendering and no byte comparison, and an identical pair is
classified exactly like a differing one. -/
theorem C5_merge_both_present (tF rF ig : List PyText)
    (mg : List Schema.ManagedPath) (p : PyText) (r : Schema.ManagedPath)
    (hp : p ∈ tF) (hrepo : p ∈ rF) (hig : Core.isIgnored p ig = false)
    (hbr : Core.findBestMatchingRule p mg = some r)
    (hm : r.strategy = Schema.Strategy.merge) :
    (⟨p, Schema.Strategy.merge, Core.ChangeType.conflict, r.path⟩ : Core.Change) ∈
      (Core.planUpgrade tF rF mg ig).changes ∧
    1 ≤ (Core.planUpgrade tF rF mg ig).conflicts := by
  obtain ⟨pre, post, htF, hpre⟩ := exists_first_split p tF hp
  have hproc : ∀ q ∈ (pre.foldl (Core.loop1Step rF mg ig)
      (⟨[], [], 0⟩ : Core.PlanState)).processed, q ∈ pre := by
    refine foldl_inv_mem (fun st => ∀ q ∈ st.processed, q ∈ pre)
      (Core.loop1Step rF mg ig) pre ?_ _ ?_
    · intro st x hx hP q hq
      rcases (Core.loop1Step_mono rF mg ig st x).2.2.2 q hq with h1 | h2
      · exact hP q h1
      · rw [h2]; exact hx
    · intro q hq; cases hq
  have hpnot : p ∉ (pre.foldl (Core.loop1Step rF mg ig)
      (⟨[], [], 0⟩ : Core.PlanState)).processed :=
    fun hq => hpre (hproc p hq)
  have hstepAt := Core.loop1Step_at_merge rF mg ig _ p r hig hbr hpnot hm hrepo
  have hbase : (⟨p, Schema.Strategy.merge, Core.ChangeType.conflict, r.path⟩ : Core.Change) ∈
      (Core.loop1Step rF mg ig (pre.foldl (Core.loop1Step rF mg ig)
        (⟨[], [], 0⟩ : Core.PlanState)) p).changes ∧
      1 ≤ (Core.loop1Step rF mg ig (pre.foldl (Core.loop1Step rF mg ig)
        (⟨[], [], 0⟩ : Core.PlanState)) p).conflicts := by
    rw [hstepAt]
    exact ⟨by simp, by simp⟩
  have hkeep1 : ∀ (st : Core.PlanState) (x : PyText),
      ((⟨p, Schema.Strategy.merge, Core.ChangeType.conflict, r.path⟩ : Core.Change) ∈
        st.changes ∧ 1 ≤ st.conflicts) →
      ((⟨p, Schema.Strategy.merge, Core.ChangeType.conflict, r.path⟩ : Core.Change) ∈
        (Core.loop1Step rF mg ig st x).changes ∧
        1 ≤ (Core.loop1Step rF mg ig st x).conflicts) := by
    intro st x hx
    exact ⟨(Core.loop1Step_mono rF mg ig st x).2.1 _ hx.1,
      le_trans hx.2 (Core.loop1Step_mono rF mg ig st x).2.2.1⟩
  have hkeep2 : ∀ (mp : Schema.ManagedPath) (st : Core.PlanState) (x : PyText),
      ((⟨p, Schema.Strategy.merge, Core.ChangeType.conflict, r.path⟩ : Core.Change) ∈
        st.changes ∧ 1 ≤ st.conflicts) →
      ((⟨p, Schema.Strategy.merge, Core.ChangeType.conflict, r.path⟩ : Core.Change) ∈
        (Core.loop2Step tF rF ig mp st x).changes ∧
        1 ≤ (Core.loop2Step tF rF ig mp st x).conflicts) := by
    intro mp st x hx
    exact ⟨(Core.loop2Step_mono tF rF ig mp st x).2.1 _ hx.1,
      le_trans hx.2 (Core.loop2Step_mono tF rF ig mp st x).2.2.1⟩
  have hst1 : (⟨p, Schema.Strategy.merge, Core.ChangeType.conflict, r.path⟩ : Core.Change) ∈
      (tF.foldl (Core.loop1Step rF mg ig) (⟨[], [], 0⟩ : Core.PlanState)).changes ∧
      1 ≤ (tF.foldl (Core.loop1Step rF mg ig) (⟨[], [], 0⟩ : Core.PlanState)).conflicts := by
    rw [htF, List.foldl_append, List.foldl_cons]
    exact Core.foldl_inv
      (fun st => (⟨p, Schema.Strategy.merge, Core.ChangeType.conflict, r.path⟩ : Core.Change) ∈
        st.changes ∧ 1 ≤ st.conflicts)
      (Core.loop1Step rF mg ig) hkeep1 post _ hbase
  exact Core.foldl_inv
    (fun st => (⟨p, Schema.Strategy.merge, Core.ChangeType.conflict, r.path⟩ : Core.Change) ∈
      st.changes ∧ 1 ≤ st.conflicts)
    (fun st mp => (rF.filter (fun q => Core.matchesPattern q mp.path)).foldl
      (Core.loop2Step tF rF ig mp) st)
    (fun st mp hP => Core.foldl_inv
      (fun st => (⟨p, Schema.Strategy.merge, Core.ChangeType.conflict, r.path⟩ : Core.Change) ∈
        st.changes ∧ 1 ≤ st.conflicts)
      (Core.loop2Step tF rF ig mp) (hkeep2 mp) _ st hP)
    mg _ hst1

theorem C5_witness :
    Core.findBestMatchingRule (pyOf "same.txt")
        [⟨pyOf "same.txt", Schema.Strategy.merge⟩] =
      some ⟨pyOf "same.txt", Schema.Strategy.merge⟩ ∧
    ((⟨pyOf "same.txt", Schema.Strategy.merge, Core.ChangeType.conflict,
        pyOf "same.txt"⟩ : Core.Change) ∈
      (Core.planUpgrade [pyOf "same.txt"] [pyOf "same.txt"]
        [⟨pyOf "same.txt", Schema.Strategy.merge⟩] []).changes ∧
    1 ≤ (Core.planUpgrade [pyOf "same.txt"] [pyOf "same.txt"]
        [⟨pyOf "same.txt", Schema.Strategy.merge⟩] []).conflicts) :=
  ⟨by decide,
    C5_merge_both_present [pyOf "same.txt"] [pyOf "same.txt"] []
      [⟨pyOf "same.txt", Schema.Strategy.merge⟩] (pyOf "same.txt")
      ⟨pyOf "same.txt", Schema.Strategy.merge⟩
      (by decide) (by decide) (by decide) (by decide) rfl⟩

/-- C5 counterexample: with a template and repository that both hold
`same.txt` under a merge rule (necessarily with whatever identical contents,
since the planner never looks at contents), the plan is a single `conflict`
change with the counter at 1, never the spec's identical-implies-no-op. -/
theorem C5_counterexample :
    Core.planUpgrade [pyOf "same.txt"] [pyOf "same.txt"]
        [⟨pyOf "same.txt", Schema.Strategy.merge⟩] [] =
      ⟨[⟨pyOf "same.txt", Schema.Strategy.merge, Core.ChangeType.conflict,
          pyOf "same.txt"⟩], 1⟩ := by
  decide

/-- C6: orphaning.  For a file `p` governed by a merge rule `r` (the first
declared rule whose pattern matches `p`), absent from the new template but
present in the repository (the MVP treats every existing file as locally
modified), the plan contains an `orphan` change for `p`; applying that change
renames the file to `p ++ ".orphaned"` with byte-identical content, removes
the original path, increments `conflicts_resolved` and leaves
`files_changed` untouched. -/
theorem C6_orphaning (tF rF ig : List PyText)
    (mg pre post : List Schema.ManagedPath) (r : Schema.ManagedPath)
    (p content : PyText) (tmplFs : Core.Fs) (st : Core.ApplyState)
    (htf : p ∉ tF) (hrepo : p ∈ rF) (hig : Core.isIgnored p ig = false)
    (hmg : mg = pre ++ r :: post) (hm : r.strategy = Schema.Strategy.merge)
    (hmatch : Core.matchesPattern p r.path = true)
    (hprev : ∀ r' ∈ pre, Core.matchesPattern p r'.path = false)
    (hcontent : st.fs p = some content) :
    (⟨p, Schema.Strategy.merge, Core.ChangeType.orphan, r.path⟩ : Core.Change) ∈
      (Core.planUpgrade tF rF mg ig).changes ∧
    Core.orphanedPath p = p ++ pyOf ".orphaned" ∧
    (Core.applyOne tmplFs st
        ⟨p, Schema.Strategy.merge, Core.ChangeType.orphan, r.path⟩).fs
      (p ++ pyOf ".orphaned") = some content ∧
    (Core.applyOne tmplFs st
        ⟨p, Schema.Strategy.merge, Core.ChangeType.orphan, r.path⟩).fs p = none ∧
    (Core.applyOne tmplFs st
        ⟨p, Schema.Strategy.merge, Core.ChangeType.orphan, r.path⟩).conflictsResolved =
      st.conflictsResolved + 1 ∧
    (Core.applyOne tmplFs st
        ⟨p, Schema.Strategy.merge, Core.ChangeType.orphan, r.path⟩).filesChanged =
      st.filesChanged := by
  subst hmg
  have happly : Core.applyOne tmplFs st
      ⟨p, Schema.Strategy.merge, Core.ChangeType.orphan, r.path⟩ =
      ⟨Core.markOrphaned st.fs p, st.filesChanged, st.conflictsResolved + 1⟩ := by
    simp [Core.applyOne]
  refine ⟨?_, Core.orphanedPath_eq p, ?_, ?_, ?_, ?_⟩
  · -- the plan part
    have hst1proc : ∀ q ∈ (tF.foldl (Core.loop1Step rF (pre ++ r :: post) ig)
        (⟨[], [], 0⟩ : Core.PlanState)).processed, q ∈ tF := by
      refine foldl_inv_mem (fun st => ∀ q ∈ st.processed, q ∈ tF)
        (Core.loop1Step rF (pre ++ r :: post) ig) tF ?_ _ ?_
      · intro st x hx hP q hq
        rcases (Core.loop1Step_mono rF (pre ++ r :: post) ig st x).2.2.2 q hq with h1 | h2
        · exact hP q h1
        · rw [h2]; exact hx
      · intro q hq; cases hq
    have hpreproc : ∀ q ∈ (pre.foldl
        (fun st mp => (rF.filter (fun q => Core.matchesPattern q mp.path)).foldl
          (Core.loop2Step tF rF ig mp) st)
        (tF.foldl (Core.loop1Step rF (pre ++ r :: post) ig) (⟨[], [], 0⟩ : Core.PlanState))).processed,
        q ∈ tF ∨ ∃ mp ∈ pre, Core.matchesPattern q mp.path = true := by
      refine foldl_inv_mem
        (fun st : Core.PlanState => ∀ q ∈ st.processed,
          q ∈ tF ∨ ∃ mp ∈ pre, Core.matchesPattern q mp.path = true)
        (fun st mp => (rF.filter (fun q => Core.matchesPattern q mp.path)).foldl
          (Core.loop2Step tF rF ig mp) st) pre ?_ _ ?_
      · intro st mp hmp hP
        refine foldl_inv_mem
          (fun st : Core.PlanState => ∀ q ∈ st.processed,
            q ∈ tF ∨ ∃ mp ∈ pre, Core.matchesPattern q mp.path = true)
          (Core.loop2Step tF rF ig mp) _ ?_ st hP
        intro st' x hx hP' q hq
        rcases (Core.loop2Step_mono tF rF ig mp st' x).2.2.2 q hq with h1 | h2
        · exact hP' q h1
        · right
          refine ⟨mp, hmp, ?_⟩
          rw [h2]
          exact (List.mem_filter.mp hx).2
      · intro q hq
        exact Or.inl (hst1proc q hq)
    have hpnot : p ∉ (pre.foldl
        (fun st mp => (rF.filter (fun q => Core.matchesPattern q mp.path)).foldl
          (Core.loop2Step tF rF ig mp) st)
        (tF.foldl (Core.loop1Step rF (pre ++ r :: post) ig) (⟨[], [], 0⟩ : Core.PlanState))).processed := by
      intro hq
      rcases hpreproc p hq with h1 | ⟨mp, hmp, h2⟩
      · exact htf h1
      · rw [hprev mp hmp] at h2
        cases h2
    have hpl : p ∈ rF.filter (fun q => Core.matchesPattern q r.path) :=
      List.mem_filter.mpr ⟨hrepo, hmatch⟩
    obtain ⟨ipre, ipost, hlst, hipre⟩ := exists_first_split p _ hpl
    have hinproc : ∀ q ∈ (ipre.foldl (Core.loop2Step tF rF ig r)
        (pre.foldl
          (fun st mp => (rF.filter (fun q => Core.matchesPattern q mp.path)).foldl
            (Core.loop2Step tF rF ig mp) st)
          (tF.foldl (Core.loop1Step rF (pre ++ r :: post) ig) (⟨[], [], 0⟩ : Core.PlanState)))).processed,
        q ∈ (pre.foldl
          (fun st mp => (rF.filter (fun q => Core.matchesPattern q mp.path)).foldl
            (Core.loop2Step tF rF ig mp) st)
          (tF.foldl (Core.loop1Step rF (pre ++ r :: post) ig) (⟨[], [], 0⟩ : Core.PlanState))).processed ∨
        q ∈ ipre := by
      refine foldl_inv_mem
        (fun st : Core.PlanState => ∀ q ∈ st.processed,
          q ∈ (pre.foldl
            (fun st mp => (rF.filter (fun q => Core.matchesPattern q mp.path)).foldl
              (Core.loop2Step tF rF ig mp) st)
            (tF.foldl (Core.loop1Step rF (pre ++ r :: post) ig)
              (⟨[], [], 0⟩ : Core.PlanState))).processed ∨ q ∈ ipre)
        (Core.loop2Step tF rF ig r) ipre ?_ _ ?_
      · intro st' x hx hP' q hq
        rcases (Core.loop2Step_mono tF rF ig r st' x).2.2.2 q hq with h1 | h2
        · rcases hP' q h1 with h3 | h4
          · exact Or.inl h3
          · exact Or.inr h4
        · exact Or.inr (h2 ▸ hx)
      · intro q hq
        exact Or.inl hq
    have hpnot2 : p ∉ (ipre.foldl (Core.loop2Step tF rF ig r)
        (pre.foldl
          (fun st mp => (rF.filter (fun q => Core.matchesPattern q mp.path)).foldl
            (Core.loop2Step tF rF ig mp) st)
          (tF.foldl (Core.loop1Step rF (pre ++ r :: post) ig) (⟨[], [], 0⟩ : Core.PlanState)))).processed := by
      intro hq
      rcases hinproc p hq with h1 | h2
      · exact hpnot h1
      · exact hipre h2
    have hstepAt := Core.loop2Step_at_orphan tF rF ig r _ p htf hig hpnot2 hrepo hm
    have hkeep2 : ∀ (mp : Schema.ManagedPath) (st : Core.PlanState) (x : PyText),
        ((⟨p, Schema.Strategy.merge, Core.ChangeType.orphan, r.path⟩ : Core.Change) ∈
          st.changes) →
        ((⟨p, Schema.Strategy.merge, Core.ChangeType.orphan, r.path⟩ : Core.Change) ∈
          (Core.loop2Step tF rF ig mp st x).changes) := by
      intro mp st x hx
      exact (Core.loop2Step_mono tF rF ig mp st x).2.1 _ hx
    have hmid : (⟨p, Schema.Strategy.merge, Core.ChangeType.orphan, r.path⟩ : Core.Change) ∈
        ((rF.filter (fun q => Core.matchesPattern q r.path)).foldl
          (Core.loop2Step tF rF ig r)
          (pre.foldl
            (fun st mp => (rF.filter (fun q => Core.matchesPattern q mp.path)).foldl
              (Core.loop2Step tF rF ig mp) st)
            (tF.foldl (Core.loop1Step rF (pre ++ r :: post) ig) (⟨[], [], 0⟩ : Core.PlanState)))).changes := by
      rw [hlst, List.foldl_append, List.foldl_cons]
      refine Core.foldl_inv
        (fun st => (⟨p, Schema.Strategy.merge, Core.ChangeType.orphan, r.path⟩ : Core.Change) ∈
          st.changes)
        (Core.loop2Step tF rF ig r) (fun st x hx => hkeep2 r st x hx) ipost _ ?_
      rw [hstepAt]
      simp
    have hfinal : (⟨p, Schema.Strategy.merge, Core.ChangeType.orphan, r.path⟩ : Core.Change) ∈
        ((pre ++ r :: post).foldl
          (fun st mp => (rF.filter (fun q => Core.matchesPattern q mp.path)).foldl
            (Core.loop2Step tF rF ig mp) st)
          (tF.foldl (Core.loop1Step rF (pre ++ r :: post) ig)
            (⟨[], [], 0⟩ : Core.PlanState))).changes := by
      rw [List.foldl_append, List.foldl_cons]
      exact Core.foldl_inv
        (fun st => (⟨p, Schema.Strategy.merge, Core.ChangeType.orphan, r.path⟩ : Core.Change) ∈
          st.changes)
        (fun st mp => (rF.filter (fun q => Core.matchesPattern q mp.path)).foldl
          (Core.loop2Step tF rF ig mp) st)
        (fun st mp hP => Core.foldl_inv
          (fun st => (⟨p, Schema.Strategy.merge, Core.ChangeType.orphan, r.path⟩ : Core.Change) ∈
            st.changes)
          (Core.loop2Step tF rF ig mp) (fun st' x hx => hkeep2 mp st' x hx) _ st hP)
        post _ hmid
    exact hfinal
  · rw [happly]
    show Core.markOrphaned st.fs p (p ++ pyOf ".orphaned") = some content
    rw [← Core.orphanedPath_eq]
    simp [Core.markOrphaned, hcontent, Core.fsSet]
  · rw [happly]
    show Core.markOrphaned st.fs p p = none
    simp [Core.markOrphaned, hcontent, Core.fsSet, Ne.symm (Core.orphanedPath_ne p)]
  · rw [happly]
  · rw [happly]

theorem C6_witness :
    (pyOf "m.txt" ∉ ([] : List PyText)) ∧
    Core.matchesPattern (pyOf "m.txt") (pyOf "m.txt") = true ∧
    ((⟨pyOf "m.txt", Schema.Strategy.merge, Core.ChangeType.orphan,
        pyOf "m.txt"⟩ : Core.Change) ∈
      (Core.planUpgrade [] [pyOf "m.txt"]
        [⟨pyOf "m.txt", Schema.Strategy.merge⟩] []).changes ∧
    Core.orphanedPath (pyOf "m.txt") = pyOf "m.txt" ++ pyOf ".orphaned" ∧
    (Core.applyOne (fun _ => none)
        ⟨fun q => if q = pyOf "m.txt" then some (pyOf "hello") else none, 0, 0⟩
        ⟨pyOf "m.txt", Schema.Strategy.merge, Core.ChangeType.orphan,
          pyOf "m.txt"⟩).fs
      (pyOf "m.txt" ++ pyOf ".orphaned") = some (pyOf "hello") ∧
    (Core.applyOne (fun _ => none)
        ⟨fun q => if q = pyOf "m.txt" then some (pyOf "hello") else none, 0, 0⟩
        ⟨pyOf "m.txt", Schema.Strategy.merge, Core.ChangeType.orphan,
          pyOf "m.txt"⟩).fs (pyOf "m.txt") = none ∧
    (Core.applyOne (fun _ => none)
        ⟨fun q => if q = pyOf "m.txt" then some (pyOf "hello") else none, 0, 0⟩
        ⟨pyOf "m.txt", Schema.Strategy.merge, Core.ChangeType.orphan,
          pyOf "m.txt"⟩).conflictsResolved = 0 + 1 ∧
    (Core.applyOne (fun _ => none)
        ⟨fun q => if q = pyOf "m.txt" then some (pyOf "hello") else none, 0, 0⟩
        ⟨pyOf "m.txt", Schema.Strategy.merge, Core.ChangeType.orphan,
          pyOf "m.txt"⟩).filesChanged = 0) :=
  ⟨by decide, by decide,
    C6_orphaning [] [pyOf "m.txt"] [] [⟨pyOf "m.txt", Schema.Strategy.merge⟩]
      [] [] ⟨pyOf "m.txt", Schema.Strategy.merge⟩ (pyOf "m.txt") (pyOf "hello")
      (fun _ => none)
      ⟨fun q => if q = pyOf "m.txt" then some (pyOf "hello") else none, 0, 0⟩
      (by decide) (by decide) (by decide) rfl rfl (by decide)
      (by intro r' hr'; cases hr') (by simp)⟩

/-- C10: managed-rule normalization.  Every lock record that passes
validation has pairwise-distinct managed paths, each nonempty and fixed by
posix normalization; the list kept is the deduplication of the
`_norm_path`-normalized input rules where, for each path, the rule kept is
the first normalized rule carrying that path (and every input path keeps a
representative). -/
theorem C10_managed_normalization (template : Schema.TemplateSource)
    (version : Option PyText) (managedRaw : List (PyText × Schema.Strategy))
    (ignoreRaw : List PyText) (appliedRef appliedCommit : Option PyText)
    (lock : Schema.RetemplarLock)
    (h : Schema.mkLock template version managedRaw ignoreRaw appliedRef
        appliedCommit = .ok lock) :
    lock.managedPaths.Pairwise (fun a b => a.path ≠ b.path) ∧
    (∀ r ∈ lock.managedPaths, r.path ≠ [] ∧ pyPosix r.path = r.path) ∧
    ∃ rs : List Schema.ManagedPath,
      managedRaw.mapM (fun pr => do
        let p ← Schema.normPath pr.1
        pure (⟨p, pr.2⟩ : Schema.ManagedPath)) = .ok rs ∧
      lock.managedPaths = Schema.dedupeManaged rs ∧
      (∀ r ∈ lock.managedPaths,
        (rs.filter (fun y => y.path = r.path)).head? = some r) ∧
      (∀ y ∈ rs, ∃ x ∈ lock.managedPaths, x.path = y.path) := by
  obtain ⟨rs, hmap, hded⟩ := Schema.mkLock_ok template version managedRaw ignoreRaw
    appliedRef appliedCommit lock h
  have hrs_norm : ∀ y ∈ rs, y.path ≠ [] ∧ pyPosix y.path = y.path := by
    intro y hy
    obtain ⟨pr, _, hpr⟩ := mapM_ok_mem _ managedRaw rs hmap y hy
    cases hnp : Schema.normPath pr.1 with
    | error e =>
        rw [hnp] at hpr
        simp [Bind.bind, Except.bind] at hpr
    | ok q =>
        rw [hnp] at hpr
        simp only [Bind.bind, Except.bind, pure, Except.pure, Except.ok.injEq] at hpr
        have hq : q = pyPosix (pyStrip pr.1) := Schema.normPath_ok pr.1 q hnp
        have hy1 : y.path = q := by rw [← hpr]
        rw [hy1, hq]
        exact ⟨pyPosix_ne_nil _, pyPosix_idem _⟩
  have hsub : ∀ r ∈ lock.managedPaths, r ∈ rs := by
    intro r hr
    rw [hded, Schema.dedupeManaged_eq] at hr
    rcases Schema.dedupe_go_mem rs [] r hr with h1 | h2
    · cases h1
    · exact h2
  refine ⟨?_, ?_, rs, hmap, hded, ?_, ?_⟩
  · rw [hded, Schema.dedupeManaged_eq]
    exact Schema.dedupe_go_pairwise rs [] (by constructor)
  · intro r hr
    exact hrs_norm r (hsub r hr)
  · intro r hr
    rw [hded, Schema.dedupeManaged_eq] at hr
    rcases Schema.dedupe_go_first rs [] r hr with h1 | ⟨_, h2⟩
    · cases h1
    · exact h2
  · intro y hy
    rw [hded, Schema.dedupeManaged_eq]
    exact Schema.dedupe_go_complete rs [] y (Or.inr hy)

theorem C10_witness :
    Schema.mkLock ⟨pyOf "rat", pyOf "gh:acme/main-svc", pyOf "v1", none⟩ none
        [(pyOf "a/", Schema.Strategy.enforce), (pyOf "a", Schema.Strategy.merge),
          (pyOf "b", Schema.Strategy.preserve)] [] none none =
      .ok ⟨⟨pyOf "rat", pyOf "gh:acme/main-svc", pyOf "v1", none⟩,
        some (pyOf "rat@v1"),
        [⟨pyOf "a", Schema.Strategy.enforce⟩, ⟨pyOf "b", Schema.Strategy.preserve⟩],
        [], some (pyOf "v1"), none⟩ ∧
    ((⟨⟨pyOf "rat", pyOf "gh:acme/main-svc", pyOf "v1", none⟩,
        some (pyOf "rat@v1"),
        [⟨pyOf "a", Schema.Strategy.enforce⟩, ⟨pyOf "b", Schema.Strategy.preserve⟩],
        [], some (pyOf "v1"), none⟩ : Schema.RetemplarLock).managedPaths.Pairwise
          (fun a b => a.path ≠ b.path) ∧
      (∀ r ∈ (⟨⟨pyOf "rat", pyOf "gh:acme/main-svc", pyOf "v1", none⟩,
          some (pyOf "rat@v1"),
          [⟨pyOf "a", Schema.Strategy.enforce⟩, ⟨pyOf "b", Schema.Strategy.preserve⟩],
          [], some (pyOf "v1"), none⟩ : Schema.RetemplarLock).managedPaths,
        r.path ≠ [] ∧ pyPosix r.path = r.path) ∧
      ∃ rs : List Schema.ManagedPath,
        [(pyOf "a/", Schema.Strategy.enforce), (pyOf "a", Schema.Strategy.merge),
          (pyOf "b", Schema.Strategy.preserve)].mapM (fun pr => do
          let p ← Schema.normPath pr.1
          pure (⟨p, pr.2⟩ : Schema.ManagedPath)) = .ok rs ∧
        (⟨⟨pyOf "rat", pyOf "gh:acme/main-svc", pyOf "v1", none⟩,
          some (pyOf "rat@v1"),
          [⟨pyOf "a", Schema.Strategy.enforce⟩, ⟨pyOf "b", Schema.Strategy.preserve⟩],
          [], some (pyOf "v1"), none⟩ : Schema.RetemplarLock).managedPaths =
          Schema.dedupeManaged rs ∧
        (∀ r ∈ (⟨⟨pyOf "rat", pyOf "gh:acme/main-svc", pyOf "v1", none⟩,
            some (pyOf "rat@v1"),
            [⟨pyOf "a", Schema.Strategy.enforce⟩, ⟨pyOf "b", Schema.Strategy.preserve⟩],
            [], some (pyOf "v1"), none⟩ : Schema.RetemplarLock).managedPaths,
          (rs.filter (fun y => y.path = r.path)).head? = some r) ∧
        (∀ y ∈ rs, ∃ x ∈ (⟨⟨pyOf "rat", pyOf "gh:acme/main-svc", pyOf "v1", none⟩,
            some (pyOf "rat@v1"),
            [⟨pyOf "a", Schema.Strategy.enforce⟩, ⟨pyOf "b", Schema.Strategy.preserve⟩],
            [], some (pyOf "v1"), none⟩ : Schema.RetemplarLock).managedPaths,
          x.path = y.path)) :=
  ⟨rfl,
    C10_managed_normalization ⟨pyOf "rat", pyOf "gh:acme/main-svc", pyOf "v1", none⟩
      none
      [(pyOf "a/", Schema.Strategy.enforce), (pyOf "a", Schema.Strategy.merge),
        (pyOf "b", Schema.Strategy.preserve)] [] none none
      ⟨⟨pyOf "rat", pyOf "gh:acme/main-svc", pyOf "v1", none⟩,
        some (pyOf "rat@v1"),
        [⟨pyOf "a", Schema.Strategy.enforce⟩, ⟨pyOf "b", Schema.Strategy.preserve⟩],
        [], some (pyOf "v1"), none⟩
      rfl⟩
